import Mathlib

/-!
Shallow embedding of the phylojs phylogenetic-tree library.

The embedding translates `src/tree/tree.ts` (the `Tree` class: node ages,
MRCA, ladderise, reroot, hybrid-edge grouping, tip labels, branch-length
totals) and the extended-Newick lexer/parser (`src/Reader.ts`).

Modelling conventions:
* JavaScript numbers are modelled by `ℚ`; `NaN` is modelled by `none` in
  `Option ℚ` wherever the source can produce it (node heights).  A branch
  length or label that is `undefined` in the source is `none`.
* The `Node` class itself is not part of the given sources (only its
  callers are); its operations (`addChild`/`removeChild` keeping the
  parent/children relation, `isLeaf` = no children, `isHybrid` = defined
  hybridID, and the preorder traversal primitive `applyPreOrder` that
  visits a node before its children, left to right, collecting non-null
  results in visit order) are modelled from the spec, §4.3.
* Trees are the inductive rose tree `PTree`; the parent of a node is the
  node above it, and a node is identified, where parent pointers are
  needed (MRCA), by its access path from the root.
-/

namespace Phylo

/-- Annotation values the parser stores on a node: a string, a flat list of
strings, or null.  Mirrors the guard `isStringOrStringArrayOrNull` in
`src/Reader.ts` (nested lists are dropped before storing). -/
inductive AnnVal where
  | str (s : String)
  | strList (l : List String)
  | null
deriving DecidableEq, Repr

/-- The data of one tree node, translated from the `Node` entity (spec §3):
`id`, optional `label`, optional `branchLength`, optional `hybridID`, and the
annotation map (an insertion-ordered association list, like a JS object).
Derived fields (`height`, `rttDist`) are not stored: they are recomputed by
the functions below exactly as `computeNodeAges` recomputes them.
The field `annot` embeds the source's NHX-style metadata map. -/
structure NodeData where
  id : ℕ
  label : Option String
  branchLength : Option ℚ
  hybridID : Option ℚ
  annot : List (String × AnnVal)
deriving DecidableEq, Repr

/-- A rooted tree of nodes: `children` is the ordered child list (order is
significant, spec §3). -/
inductive PTree where
  | node (data : NodeData) (children : List PTree)

mutual
/-- Decidable equality of trees (the automatic derivation does not handle
the nested `List` occurrence). -/
def decEqPTree : (a b : PTree) → Decidable (a = b)
  | .node d cs, .node e ds =>
    match decEq d e with
    | isFalse h => isFalse (by intro he; cases he; exact h rfl)
    | isTrue h1 =>
      match decEqPTreeList cs ds with
      | isFalse h => isFalse (by intro he; cases he; exact h rfl)
      | isTrue h2 => isTrue (by rw [h1, h2])
/-- Decidable equality of lists of trees. -/
def decEqPTreeList : (as bs : List PTree) → Decidable (as = bs)
  | [], [] => isTrue rfl
  | [], _ :: _ => isFalse (by intro h; cases h)
  | _ :: _, [] => isFalse (by intro h; cases h)
  | a :: as, b :: bs =>
    match decEqPTree a b with
    | isFalse h => isFalse (by intro he; cases he; exact h rfl)
    | isTrue h1 =>
      match decEqPTreeList as bs with
      | isFalse h => isFalse (by intro he; cases he; exact h rfl)
      | isTrue h2 => isTrue (by rw [h1, h2])
end

instance : DecidableEq PTree := decEqPTree

/-- Data stored at the root of a subtree. -/
def PTree.data : PTree → NodeData
  | .node d _ => d

/-- Ordered children of the root of a subtree. -/
def PTree.children : PTree → List PTree
  | .node _ cs => cs

/-- Embeds `Node.isLeaf()` (no children). -/
def isLeafT (t : PTree) : Bool :=
  t.children.isEmpty

/-- Embeds `Node.isHybrid()` (`hybridID !== undefined`). -/
def isHybridT (t : PTree) : Bool :=
  t.data.hybridID.isSome

mutual
/-- Embeds the `nodeList` getter: `root.applyPreOrder(node => node)` — the
preorder list of all node data, node before children, left to right. -/
def nodeListT : PTree → List NodeData
  | .node d cs => d :: nodeListF cs
/-- Preorder node list of a forest, left to right. -/
def nodeListF : List PTree → List NodeData
  | [] => []
  | c :: cs => nodeListT c ++ nodeListF cs
end

mutual
/-- Embeds the `leafList` getter: `applyPreOrder` collecting exactly the
leaves, in preorder. -/
def leafListT : PTree → List NodeData
  | .node d [] => [d]
  | .node _ (c :: cs) => leafListF (c :: cs)
/-- Preorder leaf list of a forest. -/
def leafListF : List PTree → List NodeData
  | [] => []
  | c :: cs => leafListT c ++ leafListF cs
end

/-- The string `getTipLabels` emits for one leaf: `label ?? id.toString()`. -/
def tipString (d : NodeData) : String :=
  (NodeData.label d).getD (toString (NodeData.id d))

/-- Embeds `Tree.getTipLabels()` (whole-tree form): the labels of the leaf
list, with the stringified id as fallback for unlabeled leaves. -/
def getTipLabels (t : PTree) : List String :=
  (leafListT t).map tipString

/-- Contribution of one optional branch length to the total: `undefined`
branch lengths are skipped by `getTotalBranchLength`, i.e. count as 0. -/
def blVal (b : Option ℚ) : ℚ :=
  b.getD 0

mutual
/-- Embeds `Tree.getTotalBranchLength()`: the sum of all defined branch
lengths over the node list. -/
def getTotalBranchLength : PTree → ℚ
  | .node d cs => blVal (NodeData.branchLength d) + totalBLF cs
/-- Sum of all defined branch lengths over a forest. -/
def totalBLF : List PTree → ℚ
  | [] => 0
  | c :: cs => getTotalBranchLength c + totalBLF cs
end

/-! ## Node ages (`Tree.computeNodeAges`, spec §4.5)

The heights pass assigns `height = 0` to the root and, to every other node,
`parent.height - branchLength` when its branch length is defined, `NaN`
otherwise; a `NaN` parent height propagates (`NaN - b = NaN`).  `none`
models `NaN` (after the pass every node's height is a number, so the
`!== undefined` guard of the shift loop is always true). -/

/-- Height assigned to a non-root node from its branch length and its
parent's height.  `node.parent.height !== undefined` always holds during the
preorder pass, so the source's condition reduces to: branch length defined
(and, through `NaN` arithmetic, parent height not `NaN`). -/
def childHeight (bl : Option ℚ) (ph : Option ℚ) : Option ℚ :=
  match bl, ph with
  | some b, some p => some (p - b)
  | _, _ => none

mutual
/-- Pre-shift heights of the subtree `t` whose parent has height `ph`, in
preorder. -/
def preHeightsC (ph : Option ℚ) : PTree → List (Option ℚ)
  | .node d cs =>
    childHeight (NodeData.branchLength d) ph :: preHeightsF (childHeight (NodeData.branchLength d) ph) cs
/-- Pre-shift heights of a forest whose parent has height `ph`. -/
def preHeightsF (ph : Option ℚ) : List PTree → List (Option ℚ)
  | [] => []
  | c :: cs => preHeightsC ph c ++ preHeightsF ph cs
end

/-- The `heights` array of `computeNodeAges` before the shift: root gets
`0.0`, every other node `parent.height - branchLength` or `NaN`. -/
def preHeights (t : PTree) : List (Option ℚ) :=
  match t with
  | .node _ cs => some 0 :: preHeightsF (some 0) cs

/-- `Math.min` of two heights; any `NaN` operand gives `NaN`. -/
def nanMin : Option ℚ → Option ℚ → Option ℚ
  | some a, some b => some (min a b)
  | _, _ => none

/-- `Math.min(...heights)`; `none` models `NaN`.  The `[]` case (where JS
would give `+∞`) never arises: a tree always has at least its root. -/
def jsMin : List (Option ℚ) → Option ℚ
  | [] => none
  | h :: t => t.foldl nanMin h

/-- Heights after `computeNodeAges` finished: every height is shifted down
by `youngestHeight` (`h - NaN = NaN`, and a `NaN` height stays `NaN`). -/
def postHeights (t : PTree) : List (Option ℚ) :=
  match jsMin (preHeights t) with
  | none => (preHeights t).map (fun _ => none)
  | some m => (preHeights t).map (fun h => h.map (fun x => x - m))

/-- Embeds the `isTimeTree` assignment of `computeNodeAges`:
`!Number.isNaN(youngestHeight) && (heights.length > 1 || root.branchLength !== undefined)`. -/
def isTimeTree (t : PTree) : Bool :=
  (jsMin (preHeights t)).isSome
    && (decide (1 < (preHeights t).length) || (NodeData.branchLength (PTree.data t)).isSome)

mutual
/-- One height is emitted per node of a subtree. -/
theorem preHeightsC_length (ph : Option ℚ) (t : PTree) :
    (preHeightsC ph t).length = (nodeListT t).length := by
  match t with
  | .node d cs => simp [preHeightsC, nodeListT, preHeightsF_length _ cs]
/-- One height is emitted per node of a forest. -/
theorem preHeightsF_length (ph : Option ℚ) (cs : List PTree) :
    (preHeightsF ph cs).length = (nodeListF cs).length := by
  match cs with
  | [] => rfl
  | c :: cs => simp [preHeightsF, nodeListF, preHeightsC_length ph c, preHeightsF_length ph cs]
end

/-- The `heights` array of `computeNodeAges` has one entry per node. -/
theorem preHeights_length (t : PTree) : (preHeights t).length = (nodeListT t).length := by
  match t with
  | .node d cs => simp [preHeights, nodeListT, preHeightsF_length (some 0) cs]

/-- C4: after `computeNodeAges` on any tree, `isTimeTree` is true if and only
if the minimum pre-shift node height is not NaN and (the tree has more than
one node or the root's branch length is defined). -/
theorem c4_isTimeTree_iff (t : PTree) :
    isTimeTree t = true ↔
      (jsMin (preHeights t) ≠ none
        ∧ (1 < (nodeListT t).length ∨ NodeData.branchLength (PTree.data t) ≠ none)) := by
  simp [isTimeTree, preHeights_length, Option.isSome_iff_ne_none, Bool.and_eq_true,
    Bool.or_eq_true, decide_eq_true_iff]

/-- A list of heights none of which is NaN is a list of plain rationals. -/
theorem all_isSome_eq_map_some :
    ∀ (l : List (Option ℚ)), (∀ x ∈ l, x ≠ none) → ∃ l' : List ℚ, l = l'.map some := by
  intro l
  induction l with
  | nil => exact fun _ => ⟨[], rfl⟩
  | cons a l ih =>
    intro h
    obtain ⟨l', hl'⟩ := ih (fun x hx => h x (List.mem_cons_of_mem _ hx))
    obtain ⟨x, hx⟩ := Option.ne_none_iff_exists'.mp (h a (List.mem_cons_self a l))
    exact ⟨x :: l', by simp [hx, hl']⟩

/-- `Math.min` folded over defined heights is the plain minimum fold. -/
theorem foldl_nanMin_map_some (l : List ℚ) :
    ∀ a : ℚ, (l.map some).foldl nanMin (some a) = some (l.foldl min a) := by
  induction l with
  | nil => intro a; rfl
  | cons x l ih => intro a; simpa [nanMin] using ih (min a x)

/-- Folding `min` commutes with shifting every entry down by a constant. -/
theorem foldl_min_map_sub (l : List ℚ) :
    ∀ a c : ℚ, (l.map (fun x => x - c)).foldl min (a - c) = l.foldl min a - c := by
  induction l with
  | nil => intro a c; rfl
  | cons x l ih => intro a c; simpa [min_sub_sub_right] using ih (min a x) c

/-- C3 (amended): for every tree none of whose pre-shift node heights is NaN
(equivalently, every non-root node has a defined branch length on a defined
path), the minimum over all nodes of the height left by `computeNodeAges`
is exactly 0. -/
theorem c3_min_postHeight_eq_zero (t : PTree) (h : ∀ x ∈ preHeights t, x ≠ none) :
    jsMin (postHeights t) = some 0 := by
  obtain ⟨d, cs⟩ := t
  have hrest : ∀ x ∈ preHeightsF (some 0) cs, x ≠ none := by
    intro x hx
    exact h x (by simp [preHeights]; right; exact hx)
  obtain ⟨l', hl'⟩ := all_isSome_eq_map_some _ hrest
  have hpre : preHeights (PTree.node d cs) = some 0 :: l'.map some := by
    simp [preHeights, hl']
  have hmin : jsMin (preHeights (PTree.node d cs)) = some (l'.foldl min 0) := by
    rw [hpre]
    simpa [jsMin] using foldl_nanMin_map_some l' 0
  unfold postHeights
  rw [hmin, hpre]
  have : (l'.map some).map (fun h => h.map (fun x => x - l'.foldl min 0))
      = (l'.map (fun x => x - l'.foldl min 0)).map some := by
    simp [List.map_map]
  simp only [List.map_cons, Option.map_some', this]
  have hfold := foldl_nanMin_map_some (l'.map (fun x => x - l'.foldl min 0)) (0 - l'.foldl min 0)
  simp only [jsMin, hfold, foldl_min_map_sub]
  simp

/-- A one-node tree, every height defined. -/
def singletonTree : PTree :=
  .node ⟨0, none, none, none, []⟩ []

/-- Witness for C3 at a concrete tree. -/
theorem c3_min_postHeight_eq_zero_witness :
    (∀ x ∈ preHeights singletonTree, x ≠ none) ∧ jsMin (postHeights singletonTree) = some 0 :=
  ⟨by decide, c3_min_postHeight_eq_zero singletonTree (by decide)⟩

/-! ## Ladderise (`Tree.ladderise`, spec §4.8)

At every node (visited in preorder) the child list is sorted ascending by
the number of descending tips, with a comparator returning -1/0/1; JS
`Array.prototype.sort` is stable (ES2019), which the stable insertion sort
below realises.  The sort key of a child is invariant under reordering
inside that child's subtree, so sorting a node's children before or after
the recursive visit of the children yields the same tree. -/

mutual
/-- Number of nodes in a subtree (a measure, used for recursion only). -/
def sizeT : PTree → ℕ
  | .node _ cs => 1 + sizeF cs
/-- Number of nodes in a forest. -/
def sizeF : List PTree → ℕ
  | [] => 0
  | c :: cs => sizeT c + sizeF cs
end

/-- Every subtree has at least one node. -/
theorem sizeT_pos (t : PTree) : 0 < sizeT t := by
  match t with
  | .node d cs => simp [sizeT]

/-- A member of a forest is smaller than the node above the forest. -/
theorem sizeT_lt_of_mem : ∀ {c : PTree} {cs : List PTree}, c ∈ cs → sizeT c < 1 + sizeF cs := by
  intro c cs h
  induction cs with
  | nil => cases h
  | cons a cs ih =>
    rcases List.mem_cons.mp h with rfl | h'
    · simp [sizeF]; omega
    · have := ih h'; simp [sizeF]; omega

/-- Strong induction over trees: to prove a property at a node it suffices
to have it at every child. -/
theorem PTree.inductionOn {P : PTree → Prop}
    (h : ∀ d cs, (∀ c ∈ cs, P c) → P (.node d cs)) : ∀ t, P t := fun t =>
  match t with
  | .node d cs => h d cs (fun c hc => PTree.inductionOn h c)
termination_by t => sizeT t
decreasing_by simpa [sizeT] using sizeT_lt_of_mem hc

/-- The sort key of `ladderise`: the comparator compares
`getSubtree(child).getTipLabels().length`. -/
def tipCount (t : PTree) : ℕ :=
  (getTipLabels t).length

/-- The tip count is the number of leaves. -/
theorem tipCount_eq (t : PTree) : tipCount t = (leafListT t).length := by
  simp [tipCount, getTipLabels]

/-- The comparator order of `ladderise`: child `a` may come before child `b`
when `a`'s subtree has at most as many tips as `b`'s. -/
def tipLE (a b : PTree) : Prop :=
  tipCount a ≤ tipCount b

instance : DecidableRel tipLE := fun a b => Nat.decLe _ _

instance : IsTotal PTree tipLE := ⟨fun a b => Nat.le_total _ _⟩

instance : IsTrans PTree tipLE := ⟨fun _ _ _ h h' => Nat.le_trans h h'⟩

/-- The stable ascending-by-tip-count sort a node's child list undergoes.
JS `Array.prototype.sort` is stable (ES2019) and a stable sort is uniquely
determined by the comparator, so insertion sort realises it. -/
def sortByTips (l : List PTree) : List PTree :=
  l.insertionSort tipLE

/-- Sorting permutes the child list. -/
theorem sortByTips_perm (l : List PTree) : List.Perm (sortByTips l) l :=
  List.perm_insertionSort tipLE l

/-- Sorting preserves total forest size. -/
theorem sizeF_eq_sum : ∀ l : List PTree, sizeF l = (l.map sizeT).sum := by
  intro l
  induction l with
  | nil => rfl
  | cons c cs ih => simp [sizeF, ih]

/-- Permuted forests have the same size. -/
theorem sizeF_of_perm {l₁ l₂ : List PTree} (h : List.Perm l₁ l₂) : sizeF l₁ = sizeF l₂ := by
  rw [sizeF_eq_sum, sizeF_eq_sum]
  exact (h.map sizeT).sum_eq

mutual
/-- Embeds `Tree.ladderise()`: a preorder walk that stably sorts each node's
children ascending by descendant tip count and then descends into them. -/
def ladderise : PTree → PTree
  | .node d cs => .node d (ladderiseF (sortByTips cs))
termination_by t => 2 * sizeT t
decreasing_by
  rename_i cs
  have h := sizeF_of_perm (sortByTips_perm cs)
  simp [sizeT, h]
  omega
/-- Ladderises every tree of a forest in order. -/
def ladderiseF : List PTree → List PTree
  | [] => []
  | c :: cs => ladderise c :: ladderiseF cs
termination_by l => 2 * sizeF l + 1
decreasing_by
  · simp [sizeF]; omega
  · have := sizeT_pos c; simp [sizeF]; omega
end

/-- Ladderising a forest is mapping `ladderise` over it. -/
theorem ladderiseF_eq_map : ∀ l : List PTree, ladderiseF l = l.map ladderise := by
  intro l
  induction l with
  | nil => simp [ladderiseF]
  | cons c cs ih => simp [ladderiseF, ih]

/-- Unfolding of `ladderise` at a node through the forest helper. -/
theorem ladderise_node (d : NodeData) (cs : List PTree) :
    ladderise (.node d cs) = .node d ((sortByTips cs).map ladderise) := by
  simp [ladderise, ladderiseF_eq_map]

/-- The leaf list of a node with children comes from the children alone. -/
theorem leafListT_node (d : NodeData) (cs : List PTree) :
    leafListT (.node d cs) = if cs.isEmpty then [d] else leafListF cs := by
  match cs with
  | [] => simp [leafListT]
  | c :: cs => simp [leafListT]

/-- Leaf count of a forest as the sum over its trees. -/
theorem leafListF_length_eq :
    ∀ l : List PTree, (leafListF l).length = (l.map (fun c => (leafListT c).length)).sum := by
  intro l
  induction l with
  | nil => simp [leafListF]
  | cons c cs ih => simp [leafListF, ih]

/-- Ladderising does not change the number of descending tips. -/
theorem leafLen_ladderise : ∀ t, (leafListT (ladderise t)).length = (leafListT t).length := by
  refine PTree.inductionOn ?_
  intro d cs ih
  rw [ladderise_node]
  rcases cs with _ | ⟨c, cs'⟩
  · simp [sortByTips, List.insertionSort]
  · have hlen : (sortByTips (c :: cs')).length = (c :: cs').length :=
      (sortByTips_perm (c :: cs')).length_eq
    have hne : ((sortByTips (c :: cs')).map ladderise).isEmpty = false := by
      cases h : (sortByTips (c :: cs')).map ladderise with
      | nil =>
        exfalso
        have hl := congrArg List.length h
        simp [hlen] at hl
      | cons a l => rfl
    rw [leafListT_node, leafListT_node, hne]
    simp only [List.isEmpty_cons, if_false, Bool.false_eq_true]
    rw [leafListF_length_eq, leafListF_length_eq, List.map_map]
    have hcongr : ∀ x ∈ sortByTips (c :: cs'),
        ((fun c => (leafListT c).length) ∘ ladderise) x = (leafListT x).length := by
      intro x hx
      exact ih x ((sortByTips_perm (c :: cs')).mem_iff.mp hx)
    rw [List.map_congr_left hcongr]
    exact ((sortByTips_perm (c :: cs')).map _).sum_eq

/-- Ladderising does not change a child's sort key. -/
theorem tipCount_ladderise (t : PTree) : tipCount (ladderise t) = tipCount t := by
  rw [tipCount_eq, tipCount_eq, leafLen_ladderise]

/-- C9: `ladderise` is idempotent — applying it twice leaves every node's
children in the same order as applying it once (each node's children are
stably sorted ascending by descendant tip count). -/
theorem c9_ladderise_idempotent : ∀ t : PTree, ladderise (ladderise t) = ladderise t := by
  refine PTree.inductionOn ?_
  intro d cs ih
  rw [ladderise_node, ladderise_node]
  have hsorted : List.Sorted tipLE ((sortByTips cs).map ladderise) := by
    rw [List.Sorted, List.pairwise_map]
    refine (List.sorted_insertionSort tipLE cs).imp ?_
    intro a b hab
    simpa [tipLE, tipCount_ladderise] using hab
  rw [show sortByTips ((sortByTips cs).map ladderise) = (sortByTips cs).map ladderise from
    List.Sorted.insertionSort_eq hsorted]
  congr 1
  rw [List.map_map]
  refine List.map_congr_left ?_
  intro c hc
  exact ih c ((sortByTips_perm cs).mem_iff.mp hc)

/-! ## MRCA (`Tree.getMRCA`, spec §4.7)

`getMRCA` works on `Node` references and their `parent` back-references.
The back-reference is not representable inside the rose tree, so a node is
identified by its access path from the root, stored innermost-first:
`[]` is the root and `i :: p` is child number `i` of the node at `p`; the
parent of a non-root node is then the tail of its path, and two nodes of a
tree are the same JS object exactly when their paths are equal. -/

/-- A node's position: its access path from the root, innermost-first. -/
abbrev Pos := List ℕ

/-- Embeds the `parent` reference: `none` at the root, the tail of the
path otherwise. -/
def posParent (p : Pos) : Option Pos :=
  match p with
  | [] => none
  | _ :: q => some q

/-- Embeds `visitCounts.get(node) || 0` for the `Map` of `getMRCA`; the map
is modelled as an association list whose most recent entry wins. -/
def getCount (m : List (Pos × ℕ)) (p : Pos) : ℕ :=
  match m.find? (fun e => e.1 == p) with
  | some e => e.2
  | none => 0

/-- Termination measure of the ascent: every frontier entry still has to
climb its own length plus one visits. -/
def sumLen (l : List Pos) : ℕ :=
  (l.map (fun p => p.length + 1)).sum

/-- The level-synchronised ascent of `getMRCA`: the third argument is the
unprocessed rest of the current round's `nodesToCheck`, the fourth is the
`nextNodes` list accumulated so far in this round.  Each processed node
increments its own visit count, returns itself as soon as its count reaches
`leafCount`, and otherwise queues its parent (if any) at the end of
`nextNodes`; an exhausted round starts the next one, and an empty new round
ends the search with `null`. -/
def mrcaGo : ℕ → List (Pos × ℕ) → List Pos → List Pos → Option Pos
  | _, _, [], [] => none
  | lc, counts, [], q :: qs => mrcaGo lc counts (q :: qs) []
  | lc, counts, [] :: ps, next =>
    if getCount counts [] + 1 = lc then some []
    else mrcaGo lc (([], getCount counts [] + 1) :: counts) ps next
  | lc, counts, (i :: q) :: ps, next =>
    if getCount counts (i :: q) + 1 = lc then some (i :: q)
    else mrcaGo lc ((i :: q, getCount counts (i :: q) + 1) :: counts) ps (next ++ [q])
termination_by lc counts a b => (sumLen a + sumLen b, b.length)
decreasing_by
  · rw [Prod.lex_def]
    exact Or.inr ⟨by simp [sumLen], by simp⟩
  · rw [Prod.lex_def]
    refine Or.inl ?_
    simp [sumLen]
  · rw [Prod.lex_def]
    refine Or.inl ?_
    simp [sumLen]
    omega

/-- Embeds `Tree.getMRCA(nodes)`: `[]` gives `null`; a single node gives
`nodes[0].parent || nodes[0]`; otherwise the level-synchronised ascent runs
with `leafCount = nodes.length`, an empty `visitCounts` map and
`nodesToCheck = nodes`. -/
def getMRCA (nodes : List Pos) : Option Pos :=
  match nodes with
  | [] => none
  | [x] => some ((posParent x).getD x)
  | _ => mrcaGo nodes.length [] nodes []

/-- C6: `getMRCA` on the empty node set returns no result, and on a single
node `x` it returns `x`'s parent, or `x` itself when `x` is the root. -/
theorem c6_getMRCA_empty_and_single :
    getMRCA [] = none ∧ ∀ x : Pos, getMRCA [x] = some ((posParent x).getD x) :=
  ⟨rfl, fun _ => rfl⟩

mutual
/-- Positions of the leaves of the subtree sitting at position `pref`, in
preorder (embeds the positions of the `leafList` getter). -/
def leafPosT (pref : Pos) : PTree → List Pos
  | .node _ [] => [pref]
  | .node _ (c :: cs) => leafPosF pref 0 (c :: cs)
/-- Positions of the leaves of a forest whose members sit at child indices
`i`, `i+1`, … below the node at `pref`. -/
def leafPosF (pref : Pos) (i : ℕ) : List PTree → List Pos
  | [] => []
  | c :: cs => leafPosT (i :: pref) c ++ leafPosF pref (i + 1) cs
end

/-- The positions handed to `getMRCA(this.leafList)`: the tree's leaves in
preorder. -/
def leafPositions (t : PTree) : List Pos :=
  leafPosT [] t

/-- Number of visits a frontier still owes to the ancestor `v`: every
frontier entry visits itself and then each of its ancestors (suffixes). -/
def futures (v : Pos) (l : List Pos) : ℕ :=
  (l.filter (fun p => decide (v <:+ p))).length

/-- Owed visits split over concatenated frontiers. -/
theorem futures_append (v : Pos) (l₁ l₂ : List Pos) :
    futures v (l₁ ++ l₂) = futures v l₁ + futures v l₂ := by
  simp [futures]

/-- Owed visits of one more frontier entry. -/
theorem futures_cons (v p : Pos) (l : List Pos) :
    futures v (p :: l) = (if v <:+ p then 1 else 0) + futures v l := by
  by_cases h : v <:+ p
  · simp [futures, List.filter_cons, h]
    omega
  · simp [futures, List.filter_cons, h]

/-- The map lookup after a `set`: the fresh entry wins, others unchanged. -/
theorem getCount_cons (m : List (Pos × ℕ)) (p q : Pos) (c : ℕ) :
    getCount ((p, c) :: m) q = if q = p then c else getCount m q := by
  by_cases h : q = p
  · subst h
    rw [if_pos rfl]
    unfold getCount
    rw [List.find?_cons_of_pos _ (by simp)]
  · rw [if_neg h]
    unfold getCount
    rw [List.find?_cons_of_neg _ (by simp; exact fun hc => h hc.symm)]

/-- Invariant of the level-synchronised ascent when it is called on the full
leaf list of a tree whose root has at least two children: the root is owed
exactly the missing number of visits, every other node strictly fewer, and
the root has not yet reached the threshold. -/
def MrcaInv (lc : ℕ) (counts : List (Pos × ℕ)) (a b : List Pos) : Prop :=
  getCount counts [] + futures [] (a ++ b) = lc
    ∧ (∀ v : Pos, v ≠ [] → getCount counts v + futures v (a ++ b) < lc)
    ∧ getCount counts [] < lc

/-- The ascent returns the root whenever the invariant holds: only the root
can reach the visit threshold, the frontier cannot dry up before it does,
and the first node to reach the threshold is returned. -/
theorem mrcaGo_eq_root (lc : ℕ) (counts : List (Pos × ℕ)) (a b : List Pos) :
    MrcaInv lc counts a b → mrcaGo lc counts a b = some [] := by
  induction lc, counts, a, b using mrcaGo.induct with
  | case1 lc counts =>
    intro hinv
    obtain ⟨h1, _, h3⟩ := hinv
    exfalso
    simp [futures] at h1
    omega
  | case2 lc counts q qs ih =>
    intro hinv
    have hswap : MrcaInv lc counts (q :: qs) [] := by
      obtain ⟨h1, h2, h3⟩ := hinv
      refine ⟨?_, ?_, h3⟩
      · simpa using h1
      · intro v hv
        simpa using h2 v hv
    simp only [mrcaGo]
    exact ih hswap
  | case3 counts ps next =>
    intro _
    simp [mrcaGo]
  | case4 lc counts ps next h ih =>
    intro hinv
    obtain ⟨h1, h2, h3⟩ := hinv
    have e1 : futures [] (([] :: ps) ++ next) = 1 + futures [] (ps ++ next) := by
      rw [List.cons_append, futures_cons, if_pos List.nil_suffix]
    have e2 : ∀ v : Pos, v ≠ [] → futures v (([] :: ps) ++ next) = futures v (ps ++ next) := by
      intro v hv
      rw [List.cons_append, futures_cons, if_neg, Nat.zero_add]
      rw [List.suffix_nil]
      exact hv
    simp only [mrcaGo]
    rw [if_neg h]
    apply ih
    refine ⟨?_, ?_, ?_⟩
    · rw [getCount_cons, if_pos rfl]
      rw [e1] at h1
      omega
    · intro v hv
      have hx := h2 v hv
      rw [e2 v hv] at hx
      rw [getCount_cons, if_neg hv]
      exact hx
    · rw [getCount_cons, if_pos rfl]
      rw [e1] at h1
      omega
  | case5 counts i q ps next =>
    intro hinv
    obtain ⟨h1, h2, h3⟩ := hinv
    exfalso
    have hv := h2 (i :: q) (by simp)
    rw [List.cons_append, futures_cons, if_pos (List.suffix_refl _)] at hv
    omega
  | case6 lc counts i q ps next h ih =>
    intro hinv
    obtain ⟨h1, h2, h3⟩ := hinv
    have hnotq : ¬((i : ℕ) :: q <:+ q) := by
      intro hcon
      have := List.IsSuffix.length_le hcon
      simp at this
    have eold : ∀ v : Pos,
        futures v (((i :: q) :: ps) ++ next)
          = (if v <:+ i :: q then 1 else 0) + futures v (ps ++ next) := by
      intro v
      rw [List.cons_append, futures_cons]
    have enew : ∀ v : Pos,
        futures v (ps ++ (next ++ [q]))
          = futures v (ps ++ next) + (if v <:+ q then 1 else 0) := by
      intro v
      rw [← List.append_assoc, futures_append, futures_append]
      have hq1 : futures v [q] = if v <:+ q then 1 else 0 := by
        rw [futures_cons]
        simp [futures]
      rw [hq1]
    simp only [mrcaGo]
    rw [if_neg h]
    apply ih
    refine ⟨?_, ?_, ?_⟩
    · rw [getCount_cons, if_neg (by simp), enew]
      rw [eold, if_pos List.nil_suffix] at h1
      rw [if_pos List.nil_suffix]
      omega
    · intro v hv
      by_cases hvp : v = i :: q
      · subst hvp
        rw [getCount_cons, if_pos rfl, enew, if_neg hnotq]
        have hx := h2 _ hv
        rw [eold, if_pos (List.suffix_refl _)] at hx
        omega
      · rw [getCount_cons, if_neg hvp, enew]
        have hx := h2 v hv
        rw [eold] at hx
        have hiff : (v <:+ i :: q) ↔ (v <:+ q) := by
          rw [List.suffix_cons_iff]
          simp [hvp]
        by_cases hq : v <:+ q
        · rw [if_pos hq]
          rw [if_pos (hiff.mpr hq)] at hx
          omega
        · rw [if_neg hq]
          rw [if_neg (fun hc => hq (hiff.mp hc))] at hx
          omega
    · rw [getCount_cons, if_neg (by simp)]
      exact h3


mutual
/-- A subtree always contributes at least one leaf position. -/
theorem leafPosT_ne_nil (pref : Pos) (t : PTree) : leafPosT pref t ≠ [] := by
  match t with
  | .node d [] => simp [leafPosT]
  | .node d (c :: cs) =>
    simp only [leafPosT]
    exact leafPosF_ne_nil pref 0 c cs
/-- A nonempty forest contributes at least one leaf position. -/
theorem leafPosF_ne_nil (pref : Pos) (i : ℕ) (c : PTree) (cs : List PTree) :
    leafPosF pref i (c :: cs) ≠ [] := by
  simp only [leafPosF]
  intro hcon
  rcases List.append_eq_nil.mp hcon with ⟨h1, _⟩
  exact leafPosT_ne_nil (i :: pref) c h1
end

mutual
/-- Every leaf position below a node extends that node's position. -/
theorem leafPosT_suffix (pref : Pos) (t : PTree) : ∀ p ∈ leafPosT pref t, pref <:+ p := by
  match t with
  | .node d [] =>
    intro p hp
    simp [leafPosT] at hp
    subst hp
    exact List.suffix_refl _
  | .node d (c :: cs) =>
    intro p hp
    simp only [leafPosT] at hp
    exact leafPosF_suffix pref 0 (c :: cs) p hp
/-- Every leaf position of a forest extends the position above the forest. -/
theorem leafPosF_suffix (pref : Pos) (i : ℕ) (cs : List PTree) :
    ∀ p ∈ leafPosF pref i cs, pref <:+ p := by
  match cs with
  | [] => intro p hp; simp [leafPosF] at hp
  | c :: cs =>
    intro p hp
    simp only [leafPosF] at hp
    rcases List.mem_append.mp hp with h | h
    · exact (List.suffix_cons i pref).trans (leafPosT_suffix (i :: pref) c p h)
    · exact leafPosF_suffix pref (i + 1) cs p h
end

/-- Below each child index of a forest there is a leaf whose position goes
through that child. -/
theorem leafPosF_child_exists :
    ∀ (cs : List PTree) (pref : Pos) (i j : ℕ), j < cs.length →
      ∃ p ∈ leafPosF pref i cs, ((i + j) :: pref) <:+ p := by
  intro cs
  induction cs with
  | nil => intro pref i j h; simp at h
  | cons c cs' ih =>
    intro pref i j h
    cases j with
    | zero =>
      obtain ⟨p, hp⟩ := List.exists_mem_of_ne_nil _ (leafPosT_ne_nil (i :: pref) c)
      refine ⟨p, ?_, ?_⟩
      · simp only [leafPosF]
        exact List.mem_append.mpr (Or.inl hp)
      · simpa using leafPosT_suffix (i :: pref) c p hp
    | succ j' =>
      have h' : j' < cs'.length := by simpa using h
      obtain ⟨p, hmem, hsuf⟩ := ih pref (i + 1) j' h'
      refine ⟨p, ?_, ?_⟩
      · simp only [leafPosF]
        exact List.mem_append.mpr (Or.inr hmem)
      · have harith : i + (j' + 1) = (i + 1) + j' := by omega
        rw [harith]
        exact hsuf

/-- A nonempty suffix determines the last entry of a list. -/
theorem suffix_getLast? {v l : Pos} (h : v <:+ l) (hv : v ≠ []) :
    l.getLast? = v.getLast? := by
  obtain ⟨u, rfl⟩ := h
  rw [List.getLast?_append]
  cases hg : v.getLast? with
  | none =>
    exfalso
    rw [List.getLast?_eq_none_iff] at hg
    exact hv hg
  | some a => rfl

/-- Under a root with at least two children, every non-root node misses at
least one leaf: a leaf through a different first child. -/
theorem exists_leaf_not_suffix (d : NodeData) (cs : List PTree) (h2 : 2 ≤ cs.length)
    (v : Pos) (hv : v ≠ []) :
    ∃ p ∈ leafPositions (.node d cs), ¬ v <:+ p := by
  have key : ∀ j : ℕ, j < cs.length → some j ≠ v.getLast? →
      ∃ p ∈ leafPositions (.node d cs), ¬ v <:+ p := by
    intro j hjlen hne
    obtain ⟨p, hmem, hsuf⟩ := leafPosF_child_exists cs [] 0 j hjlen
    have hmem' : p ∈ leafPositions (.node d cs) := by
      rw [leafPositions]
      cases cs with
      | nil => simp at h2
      | cons c cs' => simpa [leafPosT] using hmem
    refine ⟨p, hmem', ?_⟩
    intro hcon
    apply hne
    have hlast2 : p.getLast? = some j := by
      simpa using suffix_getLast? hsuf (by simp)
    rw [← suffix_getLast? hcon hv, hlast2]
  by_cases hpz : v.getLast? = some 0
  · exact key 1 (by omega) (by rw [hpz]; simp)
  · exact key 0 (by omega) (fun hc => hpz hc.symm)

/-- C5 (amended): for every tree with at least 2 leaves whose root has at
least two children, `getMRCA` applied to the tree's full leaf list returns
the tree's root.  (The extra hypothesis on the root is forced: through a
single-child root the child collects every leaf's visit first, see the
counterexample.) -/
theorem c5_getMRCA_leafList_eq_root (t : PTree) (hleaf : 2 ≤ (leafPositions t).length)
    (hchild : 2 ≤ (PTree.children t).length) :
    getMRCA (leafPositions t) = some [] := by
  obtain ⟨d, cs⟩ := t
  have hchild' : 2 ≤ cs.length := hchild
  rcases hl : leafPositions (.node d cs) with _ | ⟨x, l⟩
  · rw [hl] at hleaf; simp at hleaf
  rcases l with _ | ⟨y, l'⟩
  · rw [hl] at hleaf; simp at hleaf
  have hstep : getMRCA (x :: y :: l') = mrcaGo (x :: y :: l').length [] (x :: y :: l') [] := rfl
  rw [hstep]
  apply mrcaGo_eq_root
  refine ⟨?_, ?_, ?_⟩
  · rw [List.append_nil]
    have hfut : futures [] (x :: y :: l') = (x :: y :: l').length := by
      simp [futures, List.nil_suffix]
    rw [hfut]
    have hgc0 : getCount ([] : List (Pos × ℕ)) [] = 0 := rfl
    rw [hgc0, Nat.zero_add]
  · intro v hv
    rw [List.append_nil]
    have hgc : getCount [] v = 0 := rfl
    rw [hgc, Nat.zero_add, futures, List.length_filter_lt_length_iff_exists]
    obtain ⟨p, hmem, hns⟩ := exists_leaf_not_suffix d cs hchild' v hv
    rw [hl] at hmem
    exact ⟨p, hmem, by simpa using hns⟩
  · have hgc : getCount ([] : List (Pos × ℕ)) [] = 0 := rfl
    rw [hgc]
    simp

/-- A tree with two leaves whose root has a single child, as parsed from
`((A,B));`. -/
def mrcaCex : PTree :=
  .node ⟨0, none, none, none, []⟩
    [.node ⟨1, none, none, none, []⟩
      [.node ⟨2, some "A", none, none, []⟩ [], .node ⟨3, some "B", none, none, []⟩ []]]

/-- C5 as stated is false: on `mrcaCex` (two leaves, single-child root) the
ascent returns the root's only child, not the root. -/
theorem c5_counterexample :
    2 ≤ (leafPositions mrcaCex).length ∧ getMRCA (leafPositions mrcaCex) ≠ some [] := by
  have hlp : leafPositions mrcaCex = [[0, 0], [1, 0]] := rfl
  constructor
  · rw [hlp]
    simp
  · rw [hlp]
    have hstep : getMRCA [[0, 0], [1, 0]] = mrcaGo 2 [] [[0, 0], [1, 0]] [] := rfl
    rw [hstep]
    simp [mrcaGo, getCount]

/-- A two-leaf tree whose root has two children. -/
def mrcaWitTree : PTree :=
  .node ⟨0, none, none, none, []⟩
    [.node ⟨1, some "A", none, none, []⟩ [], .node ⟨2, some "B", none, none, []⟩ []]

/-- Witness for C5 (amended) at a concrete tree. -/
theorem c5_getMRCA_leafList_eq_root_witness :
    2 ≤ (leafPositions mrcaWitTree).length ∧ 2 ≤ (PTree.children mrcaWitTree).length
      ∧ getMRCA (leafPositions mrcaWitTree) = some [] :=
  ⟨by decide, by decide, c5_getMRCA_leafList_eq_root mrcaWitTree (by decide) (by decide)⟩



/-! ## The extended-Newick lexer (`doLex` in `src/Reader.ts`)

The lexer walks the input, skipping one whitespace character per iteration
(`/^\s/` matches a single character), and at each position applies the
first token rule (in source order) matching at offset 0 in the current
mode; `[&` enters annotation mode and `]` leaves it.  STRING values are
post-processed: one layer of matching quotes is stripped and the first
doubled quote of each kind is undoubled. -/

/-- A single quote character (spelled by code point). -/
def squote : Char :=
  Char.ofNat 39

/-- The JS `\s` whitespace class. -/
def isJsWs (c : Char) : Bool :=
  c == ' ' || c == '\t' || c == '\n' || c == '\r' || c.val == 11 || c.val == 12
    || c.val == 0xA0 || c.val == 0x1680 || (0x2000 ≤ c.val && c.val ≤ 0x200A)
    || c.val == 0x2028 || c.val == 0x2029 || c.val == 0x202F || c.val == 0x205F
    || c.val == 0x3000 || c.val == 0xFEFF

/-- Value of a digit run. -/
def digitsVal (l : List Char) : ℕ :=
  l.foldl (fun a c => 10 * a + (c.toNat - 48)) 0

/-- Models the JS `Number(string)` coercion on the fragment the parser
relies on: after trimming whitespace, the empty string is 0, and otherwise
a signed decimal literal with optional fraction and exponent is parsed;
`none` models `NaN`.  `Infinity` and radix-prefixed literals are outside
this model (they cannot be carried by `ℚ`) and also map to `none`. -/
def jsNumber (s : String) : Option ℚ :=
  let cs := ((s.toList.dropWhile isJsWs).reverse.dropWhile isJsWs).reverse
  if cs.isEmpty then some 0
  else
    let sgnCs : ℚ × List Char :=
      match cs with
      | '+' :: r => (1, r)
      | '-' :: r => (-1, r)
      | _ => (1, cs)
    let ip := sgnCs.2.takeWhile Char.isDigit
    let cs₂ := sgnCs.2.dropWhile Char.isDigit
    let fpCs : List Char × List Char :=
      match cs₂ with
      | '.' :: r => (r.takeWhile Char.isDigit, r.dropWhile Char.isDigit)
      | _ => ([], cs₂)
    if ip.isEmpty && fpCs.1.isEmpty then none
    else
      let mant : ℚ :=
        sgnCs.1 * ((digitsVal ip : ℚ) + (digitsVal fpCs.1 : ℚ) / ((10 : ℚ) ^ fpCs.1.length))
      match fpCs.2 with
      | [] => some mant
      | e :: r =>
        if e = 'e' ∨ e = 'E' then
          let esgnR : Bool × List Char :=
            match r with
            | '+' :: rr => (true, rr)
            | '-' :: rr => (false, rr)
            | _ => (true, r)
          let ed := esgnR.2.takeWhile Char.isDigit
          if ed.isEmpty || !(esgnR.2.dropWhile Char.isDigit).isEmpty then none
          else if esgnR.1 then some (mant * (10 : ℚ) ^ digitsVal ed)
          else some (mant / (10 : ℚ) ^ digitsVal ed)
        else none

/-- Token kinds of the extended-Newick lexer. -/
inductive TokKind where
  | OPENP
  | CLOSEP
  | COLON
  | COMMA
  | SEMI
  | OPENA
  | CLOSEA
  | OPENV
  | CLOSEV
  | EQ
  | HASH
  | STRING
deriving DecidableEq, Repr

/-- A lexed token: kind, processed text and source offset. -/
structure Tok where
  kind : TokKind
  text : String
  pos : ℕ
deriving DecidableEq, Repr

/-- Greedy match of the quoted-string body `(?:[^q]|qq)+` plus the closing
quote, returning how many characters after the opening quote are consumed.
A doubled quote is consumed greedily; if the rest then fails to match, the
first of the two quotes closes the string instead (regex backtracking).
The boolean records whether at least one body unit has been consumed. -/
def qScan (q : Char) : List Char → Bool → Option ℕ
  | [], _ => none
  | c :: rest, hasUnit =>
    if c = q then
      match rest with
      | c₂ :: rest₂ =>
        if c₂ = q then
          match qScan q rest₂ true with
          | some n => some (n + 2)
          | none => if hasUnit then some 1 else none
        else if hasUnit then some 1 else none
      | [] => if hasUnit then some 1 else none
    else
      match qScan q rest true with
      | some n => some (n + 1)
      | none => none

/-- Characters that stop the default-mode bare string rule
`[^,():;[\]#]+`. -/
def bare0Stop (c : Char) : Bool :=
  c == ',' || c == '(' || c == ')' || c == ':' || c == ';' || c == '[' || c == ']' || c == '#'

/-- Characters that stop the annotation-mode bare string rule
`[^,[\]{}=]+`. -/
def bare1Stop (c : Char) : Bool :=
  c == ',' || c == '[' || c == ']' || c == '{' || c == '}' || c == '='

/-- The default-mode bare string rule `[^,():;[\]#]+(?:\([^)]*\))?`: a
nonempty run of unrestricted characters, optionally followed by one
parenthesised group with no `)` inside (dropped if unclosed). -/
def bareMatch0 (cs : List Char) : Option (List Char × List Char) :=
  let run := cs.takeWhile (fun c => !bare0Stop c)
  if run.isEmpty then none
  else
    let rest := cs.drop run.length
    match rest with
    | '(' :: r =>
      let inner := r.takeWhile (fun c => !(c == ')'))
      match r.drop inner.length with
      | ')' :: r₂ => some (run ++ '(' :: (inner ++ [')']), r₂)
      | _ => some (run, rest)
    | _ => some (run, rest)

/-- The annotation-mode bare string rule `[^,[\]{}=]+`. -/
def bareMatch1 (cs : List Char) : Option (List Char × List Char) :=
  let run := cs.takeWhile (fun c => !bare1Stop c)
  if run.isEmpty then none else some (run, cs.drop run.length)

/-- Replace the first occurrence of `pat` (nonempty) by `rep`
(JS `String.replace` with a plain string pattern). -/
def replaceFirst : List Char → List Char → List Char → List Char
  | [], _, _ => []
  | c :: rest, pat, rep =>
    if pat.isPrefixOf (c :: rest) then rep ++ (c :: rest).drop pat.length
    else c :: replaceFirst rest pat rep

/-- The quote-stripping regexes `^"(.*)"$` / `^'(.*)'$` applied to a STRING
value: strip one layer when the value is enclosed in that quote and the
middle crosses no line break (`.` does not match `\n`/`\r`). -/
def stripQuotes (q : Char) (l : List Char) : List Char :=
  match l with
  | c :: rest =>
    if c = q ∧ rest ≠ [] ∧ rest.getLast? = some q
        ∧ (rest.dropLast.all (fun ch => !(ch == '\n') && !(ch == '\r')))
    then rest.dropLast
    else l
  | [] => l

/-- Post-processing of every STRING token value: strip quotes, then
un-double the first `''` and the first `""` (both `replace` calls are
non-global and applied unconditionally, as in the source). -/
def stringValue (raw : List Char) : String :=
  let v₁ := stripQuotes '"' raw
  let v₂ := stripQuotes squote v₁
  let v₃ := replaceFirst v₂ [squote, squote] [squote]
  let v₄ := replaceFirst v₃ ['"', '"'] ['"']
  String.mk v₄

/-- One lexer step: try the token rules in source order in the current
mode; returns the kind, the raw matched characters and the rest, or `none`
when no rule matches (a lex error). -/
def lexStep (mode1 : Bool) (cs : List Char) : Option (TokKind × List Char × List Char) :=
  match cs with
  | '(' :: r => some (.OPENP, ['('], r)
  | ')' :: r => some (.CLOSEP, [')'], r)
  | ':' :: r => some (.COLON, [':'], r)
  | ',' :: r => some (.COMMA, [','], r)
  | ';' :: r => some (.SEMI, [';'], r)
  | '[' :: '&' :: r => some (.OPENA, ['[', '&'], r)
  | ']' :: r => some (.CLOSEA, [']'], r)
  | '{' :: r => some (.OPENV, ['{'], r)
  | '}' :: r => some (.CLOSEV, ['}'], r)
  | '=' :: r => some (.EQ, ['='], r)
  | '#' :: r => some (.HASH, ['#'], r)
  | c :: r =>
    let quoted : Option (TokKind × List Char × List Char) :=
      if c = '"' || c = squote then
        match qScan c r false with
        | some n => some (.STRING, c :: r.take n, r.drop n)
        | none => none
      else none
    match quoted with
    | some t => some t
    | none =>
      match (if mode1 then bareMatch1 (c :: r) else bareMatch0 (c :: r)) with
      | some (raw, rest) => some (.STRING, raw, rest)
      | none => none
  | [] => none

/-- Lexer failures: an unmatched character at its offset, or the fuel
guard (unreachable from `doLex`, which always supplies enough fuel since
every iteration consumes at least one character). -/
inductive LexErr where
  | badChar (c : Char) (pos : ℕ)
  | fuelOut
deriving DecidableEq, Repr

/-- The lexer loop. -/
def lexAux : ℕ → Bool → ℕ → List Char → Except LexErr (List Tok)
  | _, _, _, [] => .ok []
  | 0, _, _, _ :: _ => .error .fuelOut
  | fuel + 1, mode1, pos, c :: rest =>
    if isJsWs c then lexAux fuel mode1 (pos + 1) rest
    else
      match lexStep mode1 (c :: rest) with
      | none => .error (.badChar c pos)
      | some (k, raw, rem) =>
        let mode1' := if k = .OPENA then true else if k = .CLOSEA then false else mode1
        let value := if k = .STRING then stringValue raw else String.mk raw
        match lexAux fuel mode1' (pos + raw.length) rem with
        | .ok toks => .ok (⟨k, value, pos⟩ :: toks)
        | .error e => .error e

/-- Embeds `doLex`. -/
def doLex (s : String) : Except LexErr (List Tok) :=
  lexAux (s.length + 1) false 0 s.toList

/-! ## The recursive-descent parser (`doParse` in `src/Reader.ts`)

One function per grammar rule, sharing one cursor (the index into the
token list) and the sequential node-id counter.  The functions are fuelled;
`parseFuel` always suffices (each unit of grammar nesting consumes a
token), so the `fuelOut` error is unreachable from `readNewick`. -/

/-- Parse errors, one constructor per throw site of the source (plus the
lexer errors and the fuel guard). -/
inductive PErr where
  | lexBad (c : Char) (pos : ℕ)
  | lexFuel
  | unexpected (expected : TokKind) (found : TokKind) (text : String) (pos : ℕ)
  | earlyEnd (expected : TokKind)
  | multipleRoots
  | badBranchLength (s : String)
  | fuelOut
deriving DecidableEq, Repr

/-- Raw value returned by `ruleQ`: a string, a (possibly nested) list, or
null. -/
inductive QVal where
  | str (s : String)
  | list (l : List QVal)
  | null

/-- All members of a value list that are plain strings, or `none` if one
is not. -/
def allStrings : List QVal → Option (List String)
  | [] => some []
  | .str s :: r => (allStrings r).map (fun l => s :: l)
  | _ => none

/-- The parser's guard `isStringOrStringArrayOrNull` with the conversion
into a storable annotation value; nested lists fail the guard and are
dropped. -/
def toAnnVal : QVal → Option AnnVal
  | .str s => some (.str s)
  | .null => some .null
  | .list l =>
    match allStrings l with
    | some ss => some (.strList ss)
    | none => none

/-- JS object assignment `node.annotation[key] = value`: overwrite the
value in place when the key exists, append otherwise. -/
def annSet (m : List (String × AnnVal)) (k : String) (v : AnnVal) :
    List (String × AnnVal) :=
  if m.any (fun e => e.1 == k) then m.map (fun e => if e.1 == k then (k, v) else e)
  else m ++ [(k, v)]

/-- Kind of the token at the cursor (`none` past the end). -/
def kindAt (toks : List Tok) (idx : ℕ) : Option TokKind :=
  (toks[idx]?).map Tok.kind

/-- Text of the token at an index (used as `tokenList[idx - 1][1]` after a
successful accept, hence always in bounds there). -/
def textAt (toks : List Tok) (idx : ℕ) : String :=
  ((toks[idx]?).map Tok.text).getD ""

/-- `acceptToken(token, true)`: advance on a match; raise the positional
unexpected-token error, or the premature-end error, otherwise. -/
def expectTok (toks : List Tok) (idx : ℕ) (k : TokKind) : Except PErr ℕ :=
  match toks[idx]? with
  | some t => if t.kind = k then .ok (idx + 1) else .error (.unexpected k t.kind t.text t.pos)
  | none => .error (.earlyEnd k)

/-- `ruleL`: an optional bare string token becomes the node's label. -/
def ruleL (toks : List Tok) (idx : ℕ) : Option String × ℕ :=
  if kindAt toks idx = some .STRING then (some (textAt toks idx), idx + 1)
  else (none, idx)

/-- `ruleH`: optional `#` then a mandatory STRING coerced with
`Number(...)` into the hybrid id.  In JS a non-numeric string stores `NaN`
as the id (the node still counts as hybrid); `ℚ` cannot carry `NaN`, so
such an id is modelled as absent — the claims under study never exercise
`#` with non-numeric text. -/
def ruleH (toks : List Tok) (idx : ℕ) : Except PErr (Option ℚ × ℕ) :=
  if kindAt toks idx = some .HASH then do
    let idx₁ ← expectTok toks (idx + 1) .STRING
    .ok (jsNumber (textAt toks (idx₁ - 1)), idx₁)
  else .ok (none, idx)

/-- `ruleR`: consume any further colon-delimited blocks after the branch
length (`:` then an optional STRING), storing nothing. -/
def ruleR (toks : List Tok) : ℕ → ℕ → Except PErr ℕ
  | 0, _ => .error .fuelOut
  | fuel + 1, idx =>
    if kindAt toks idx = some .COLON then
      ruleR toks fuel (if kindAt toks (idx + 1) = some .STRING then idx + 2 else idx + 1)
    else .ok idx

mutual
/-- `ruleQ`: an annotation value — a string, a brace-delimited list of
values, or null. -/
def ruleQ (toks : List Tok) : ℕ → ℕ → Except PErr (QVal × ℕ)
  | 0, _ => .error .fuelOut
  | fuel + 1, idx =>
    if kindAt toks idx = some .STRING then .ok (.str (textAt toks idx), idx + 1)
    else if kindAt toks idx = some .OPENV then do
      let (v, idx₁) ← ruleQ toks fuel (idx + 1)
      let (vs, idx₂) ← ruleW toks fuel idx₁
      let idx₃ ← expectTok toks idx₂ .CLOSEV
      .ok (.list (v :: vs), idx₃)
    else .ok (.null, idx)
termination_by structural fuel idx => fuel
/-- `ruleW`: the comma-separated continuation of a value list. -/
def ruleW (toks : List Tok) : ℕ → ℕ → Except PErr (List QVal × ℕ)
  | 0, _ => .error .fuelOut
  | fuel + 1, idx =>
    if kindAt toks idx = some .COMMA then do
      let (v, idx₁) ← ruleQ toks fuel (idx + 1)
      let (vs, idx₂) ← ruleW toks fuel idx₁
      .ok (v :: vs, idx₂)
    else .ok ([], idx)
termination_by structural fuel idx => fuel
end

mutual
/-- `ruleD`: one `key = Value` annotation entry, stored only when the value
passes the string/string-list/null guard. -/
def ruleD (toks : List Tok) : ℕ → ℕ → List (String × AnnVal) →
    Except PErr (List (String × AnnVal) × ℕ)
  | 0, _, _ => .error .fuelOut
  | fuel + 1, idx, ann => do
    let idx₁ ← expectTok toks idx .STRING
    let key := textAt toks (idx₁ - 1)
    let idx₂ ← expectTok toks idx₁ .EQ
    let (v, idx₃) ← ruleQ toks fuel idx₂
    match toAnnVal v with
    | some av => .ok (annSet ann key av, idx₃)
    | none => .ok (ann, idx₃)
/-- `ruleE`: the comma-separated continuation of an annotation block. -/
def ruleE (toks : List Tok) : ℕ → ℕ → List (String × AnnVal) →
    Except PErr (List (String × AnnVal) × ℕ)
  | 0, _, _ => .error .fuelOut
  | fuel + 1, idx, ann =>
    if kindAt toks idx = some .COMMA then do
      let (ann₁, idx₁) ← ruleD toks fuel (idx + 1) ann
      ruleE toks fuel idx₁ ann₁
    else .ok (ann, idx)
termination_by structural fuel idx ann => fuel
end

/-- `ruleA`: an optional `[&` key `=` Value (`,` key `=` Value)* `]`
annotation block applied to the node's annotation map. -/
def ruleA (toks : List Tok) : ℕ → ℕ → List (String × AnnVal) →
    Except PErr (List (String × AnnVal) × ℕ)
  | 0, _, _ => .error .fuelOut
  | fuel + 1, idx, ann =>
    if kindAt toks idx = some .OPENA then do
      let (ann₁, idx₁) ← ruleD toks fuel (idx + 1) ann
      let (ann₂, idx₂) ← ruleE toks fuel idx₁ ann₁
      let idx₃ ← expectTok toks idx₂ .CLOSEA
      .ok (ann₂, idx₃)
    else .ok (ann, idx)

/-- `ruleB`: the branch-length block — optional `:`, then a mandatory
STRING whose `Number(...)` coercion must not be NaN (else the ParseError),
stored as the node's branch length; `ruleR` then consumes any further
colon-delimited tokens without storing them, and an optional post-length
annotation block follows. -/
def ruleB (toks : List Tok) : ℕ → ℕ → List (String × AnnVal) →
    Except PErr (Option ℚ × List (String × AnnVal) × ℕ)
  | 0, _, _ => .error .fuelOut
  | fuel + 1, idx, ann =>
    if kindAt toks idx = some .COLON then do
      let idx₂ ← expectTok toks (idx + 1) .STRING
      let s := textAt toks (idx₂ - 1)
      match jsNumber s with
      | none => .error (.badBranchLength s)
      | some q => do
        let idx₃ ← ruleR toks fuel idx₂
        let (ann₁, idx₄) ← ruleA toks fuel idx₃ ann
        .ok (some q, ann₁, idx₄)
    else .ok (none, ann, idx)

mutual
/-- `ruleN`: one Node production — assign the next sequential id, then
optional children, optional label, optional hybrid marker, optional
annotation block and optional branch-length block, in that fixed order. -/
def ruleN (toks : List Tok) : ℕ → ℕ → ℕ → Except PErr (PTree × ℕ × ℕ)
  | 0, _, _ => .error .fuelOut
  | fuel + 1, idx, nid => do
    let (cs, idx₁, nid₁) ← ruleC toks fuel idx (nid + 1)
    let labIdx := ruleL toks idx₁
    let (hid, idx₃) ← ruleH toks labIdx.2
    let (ann₁, idx₄) ← ruleA toks fuel idx₃ []
    let (bl, ann₂, idx₅) ← ruleB toks fuel idx₄ ann₁
    .ok (.node ⟨nid, labIdx.1, bl, hid, ann₂⟩ cs, idx₅, nid₁)
termination_by structural fuel idx nid => fuel
/-- `ruleC`: `(` Node (`,` Node)* `)`, the node's (optional) children. -/
def ruleC (toks : List Tok) : ℕ → ℕ → ℕ → Except PErr (List PTree × ℕ × ℕ)
  | 0, _, _ => .error .fuelOut
  | fuel + 1, idx, nid =>
    if kindAt toks idx = some .OPENP then do
      let (c, idx₁, nid₁) ← ruleN toks fuel (idx + 1) nid
      let (cs, idx₂, nid₂) ← ruleM toks fuel idx₁ nid₁
      let idx₃ ← expectTok toks idx₂ .CLOSEP
      .ok (c :: cs, idx₃, nid₂)
    else .ok ([], idx, nid)
termination_by structural fuel idx nid => fuel
/-- `ruleM`: the comma-separated continuation of a child list. -/
def ruleM (toks : List Tok) : ℕ → ℕ → ℕ → Except PErr (List PTree × ℕ × ℕ)
  | 0, _, _ => .error .fuelOut
  | fuel + 1, idx, nid =>
    if kindAt toks idx = some .COMMA then do
      let (c, idx₁, nid₁) ← ruleN toks fuel (idx + 1) nid
      let (cs, idx₂, nid₂) ← ruleM toks fuel idx₁ nid₁
      .ok (c :: cs, idx₂, nid₂)
    else .ok ([], idx, nid)
termination_by structural fuel idx nid => fuel
end

/-- `ruleT`: one Node production and an optional trailing semicolon; a
comma instead signals multiple sibling roots and raises the dedicated
ParseError. -/
def ruleT (toks : List Tok) (fuel : ℕ) : Except PErr PTree :=
  match fuel with
  | 0 => .error .fuelOut
  | fuel + 1 => do
    let (t, idx, _) ← ruleN toks fuel 0 0
    if kindAt toks idx = some .SEMI then .ok t
    else if kindAt toks idx = some .COMMA then .error .multipleRoots
    else .ok t

/-- Recursion budget for the fuelled parser: every two units of call depth
consume at least one token, so linear fuel with headroom is never exhausted
by `readNewick`. -/
def parseFuel (toks : List Tok) : ℕ :=
  4 * toks.length + 16

/-- Lift lexer failures into the parser's error type. -/
def liftLex : Except LexErr (List Tok) → Except PErr (List Tok)
  | .ok toks => .ok toks
  | .error (.badChar c p) => .error (.lexBad c p)
  | .error .fuelOut => .error .lexFuel

/-- Embeds `readNewick`: lex, parse, wrap in a `Tree` (whose constructor
only computes the derived heights) and normalise a zero root branch length
to `undefined`. -/
def readNewick (s : String) : Except PErr PTree := do
  let toks ← liftLex (doLex s)
  let t ← ruleT toks (parseFuel toks)
  match t with
  | .node d cs =>
    if NodeData.branchLength d = some 0 then .ok (.node {d with branchLength := none} cs)
    else .ok t



/-- All-whitespace suffixes lex to the empty token list: each iteration
consumes exactly the one whitespace character that `\s` matched. -/
theorem lexAux_ws : ∀ (cs : List Char) (fuel pos : ℕ) (mode1 : Bool),
    cs.length ≤ fuel → (∀ c ∈ cs, isJsWs c = true) →
    lexAux fuel mode1 pos cs = .ok [] := by
  intro cs
  induction cs with
  | nil =>
    intro fuel pos mode1 _ _
    cases fuel <;> rfl
  | cons c cs ih =>
    intro fuel pos mode1 hf hws
    match fuel with
    | 0 => simp at hf
    | fuel + 1 =>
      have hc : isJsWs c = true := hws c (List.mem_cons_self c cs)
      have hf' : cs.length ≤ fuel := by
        simp at hf
        omega
      rw [lexAux, if_pos hc]
      exact ih fuel (pos + 1) mode1 hf' (fun x hx => hws x (List.mem_cons_of_mem c hx))

/-- C10: `readNewick` applied to the empty string, or to any string of
whitespace only, does not raise: it returns a tree whose root is a single
node with id 0, no label, no children and no branch length. -/
theorem c10_readNewick_whitespace (s : String) (hws : ∀ c ∈ s.toList, isJsWs c = true) :
    readNewick s = .ok (.node ⟨0, none, none, none, []⟩ []) := by
  have hlen : s.toList.length ≤ s.length + 1 := by
    rw [show s.toList.length = s.length from rfl]
    omega
  have hlex : doLex s = .ok [] := lexAux_ws s.toList (s.length + 1) 0 false hlen hws
  unfold readNewick
  rw [hlex]
  rfl

/-- Witness for C10 at the empty string. -/
theorem c10_readNewick_whitespace_witness :
    (∀ c ∈ "".toList, isJsWs c = true)
      ∧ readNewick "" = .ok (.node ⟨0, none, none, none, []⟩ []) :=
  ⟨by decide, c10_readNewick_whitespace "" (by decide)⟩

/-- C7: when the token stream parses as one top-level Node production and
the following token is a comma instead of a semicolon (multiple sibling
roots), parsing raises the multiple-roots ParseError; in particular
`readNewick` fails on such an input rather than returning a tree. -/
theorem c7_multiple_roots (s : String) (toks : List Tok) (t : PTree) (i nid : ℕ)
    (hlex : doLex s = .ok toks)
    (hn : ruleN toks (parseFuel toks - 1) 0 0 = .ok (t, i, nid))
    (hc : kindAt toks i = some .COMMA) :
    readNewick s = .error .multipleRoots := by
  have hfuel : parseFuel toks = (parseFuel toks - 1) + 1 := by
    unfold parseFuel
    omega
  have hsemi : kindAt toks i ≠ some TokKind.SEMI := by
    rw [hc]
    simp
  have ht : ruleT toks (parseFuel toks) = .error .multipleRoots := by
    rw [hfuel]
    rw [show ruleT toks ((parseFuel toks - 1) + 1)
        = (do
            let (t, idx, _) ← ruleN toks (parseFuel toks - 1) 0 0
            if kindAt toks idx = some TokKind.SEMI then Except.ok t
            else if kindAt toks idx = some TokKind.COMMA then Except.error PErr.multipleRoots
            else Except.ok t) from rfl]
    rw [hn]
    show (if kindAt toks i = some TokKind.SEMI then Except.ok t
      else if kindAt toks i = some TokKind.COMMA then Except.error PErr.multipleRoots
      else Except.ok t) = Except.error PErr.multipleRoots
    rw [if_neg hsemi, if_pos hc]
  unfold readNewick
  rw [hlex]
  show (do
      let t ← ruleT toks (parseFuel toks)
      match t with
      | PTree.node d cs =>
        if NodeData.branchLength d = some 0 then
          Except.ok (PTree.node {d with branchLength := none} cs)
        else Except.ok t : Except PErr PTree) = Except.error PErr.multipleRoots
  rw [ht]
  rfl

/-- Witness for C7 at the concrete input `A,B;`. -/
theorem c7_multiple_roots_witness : readNewick "A,B;" = .error .multipleRoots :=
  c7_multiple_roots "A,B;"
    [⟨.STRING, "A", 0⟩, ⟨.COMMA, ",", 1⟩, ⟨.STRING, "B", 2⟩, ⟨.SEMI, ";", 3⟩]
    (.node ⟨0, some "A", none, none, []⟩ []) 1 1 (by rfl) (by rfl) (by rfl)

/-- `ruleR` walks exactly over the colon-delimited `COLON STRING` pairs in
front of the cursor and stops at the first non-colon token, storing
nothing. -/
theorem ruleR_consumes (toks : List Tok) :
    ∀ (k fuel i : ℕ), k + 1 ≤ fuel →
      (∀ j < k, kindAt toks (i + 2 * j) = some .COLON
        ∧ kindAt toks (i + 2 * j + 1) = some .STRING) →
      kindAt toks (i + 2 * k) ≠ some .COLON →
      ruleR toks fuel i = .ok (i + 2 * k) := by
  intro k
  induction k with
  | zero =>
    intro fuel i hf hp hs
    match fuel with
    | 0 => omega
    | fuel + 1 =>
      rw [ruleR, if_neg (by simpa using hs)]
      simp
  | succ k ih =>
    intro fuel i hf hp hs
    match fuel with
    | 0 => omega
    | fuel + 1 =>
      have h0 := hp 0 (by omega)
      simp only [Nat.mul_zero, Nat.add_zero] at h0
      rw [ruleR, if_pos h0.1, if_pos (by simpa using h0.2)]
      have hp' : ∀ j < k, kindAt toks ((i + 2) + 2 * j) = some .COLON
          ∧ kindAt toks ((i + 2) + 2 * j + 1) = some .STRING := by
        intro j hj
        have e1 : (i + 2) + 2 * j = i + 2 * (j + 1) := by omega
        rw [e1]
        exact hp (j + 1) (by omega)
      have hs' : kindAt toks ((i + 2) + 2 * k) ≠ some .COLON := by
        have e : (i + 2) + 2 * k = i + 2 * (k + 1) := by omega
        rw [e]
        exact hs
      have := ih fuel (i + 2) (by omega) hp' hs'
      rw [this]
      have e : (i + 2) + 2 * k = i + 2 * (k + 1) := by omega
      rw [e]

/-- C8: inside a branch-length block (a colon followed by a mandatory
string token), a token text that does not parse as a number raises a
ParseError; otherwise the parsed number becomes the node's branch length,
and any further colon-delimited tokens that follow are consumed without
anything being stored on the node (the annotation map is returned
unchanged, and ruleR only advances the cursor). -/
theorem c8_branch_length (toks : List Tok) (idx : ℕ) (st : Tok)
    (hcolon : kindAt toks idx = some .COLON)
    (hst : toks[idx + 1]? = some st) (hk : st.kind = .STRING) :
    (∀ (fuel : ℕ) (ann : List (String × AnnVal)), jsNumber st.text = none →
        ruleB toks (fuel + 1) idx ann = .error (.badBranchLength st.text))
      ∧ (∀ (q : ℚ) (k fuel : ℕ) (ann : List (String × AnnVal)), jsNumber st.text = some q →
          (∀ j < k, kindAt toks (idx + 2 + 2 * j) = some .COLON
            ∧ kindAt toks (idx + 2 + 2 * j + 1) = some .STRING) →
          kindAt toks (idx + 2 + 2 * k) ≠ some .COLON →
          kindAt toks (idx + 2 + 2 * k) ≠ some .OPENA →
          k + 2 ≤ fuel →
          ruleB toks fuel idx ann = .ok (some q, ann, idx + 2 + 2 * k)) := by
  have hexp : expectTok toks (idx + 1) .STRING = .ok (idx + 2) := by
    unfold expectTok
    rw [hst]
    simp [hk]
  have htext : textAt toks (idx + 2 - 1) = st.text := by
    unfold textAt
    rw [show idx + 2 - 1 = idx + 1 from rfl, hst]
    rfl
  constructor
  · intro fuel ann hnone
    rw [ruleB, if_pos hcolon]
    rw [hexp]
    show (match jsNumber (textAt toks (idx + 2 - 1)) with
      | none => Except.error (PErr.badBranchLength (textAt toks (idx + 2 - 1)))
      | some q => do
        let idx₃ ← ruleR toks fuel (idx + 2)
        let r ← ruleA toks fuel idx₃ ann
        Except.ok (some q, r.1, r.2)) = Except.error (PErr.badBranchLength st.text)
    rw [htext, hnone]
  · intro q k fuel ann hq hp hsc hsa hfuel
    match fuel, hfuel with
    | fuel + 1, hfuel =>
      rw [ruleB, if_pos hcolon]
      rw [hexp]
      show (match jsNumber (textAt toks (idx + 2 - 1)) with
        | none => Except.error (PErr.badBranchLength (textAt toks (idx + 2 - 1)))
        | some q => do
          let idx₃ ← ruleR toks fuel (idx + 2)
          let r ← ruleA toks fuel idx₃ ann
          Except.ok (some q, r.1, r.2)) = Except.ok (some q, ann, idx + 2 + 2 * k)
      rw [htext, hq]
      have hr : ruleR toks fuel (idx + 2) = .ok (idx + 2 + 2 * k) := by
        apply ruleR_consumes toks k fuel (idx + 2) (by omega)
        · intro j hj
          exact hp j hj
        · exact hsc
      rw [hr]
      match fuel, hfuel with
      | fuel + 1, _ =>
        show (do
          let r ← ruleA toks (fuel + 1) (idx + 2 + 2 * k) ann
          Except.ok (some q, r.1, r.2) : Except PErr (Option ℚ × List (String × AnnVal) × ℕ))
            = Except.ok (some q, ann, idx + 2 + 2 * k)
        rw [ruleA, if_neg hsa]
        rfl

/-- Witness for C8: a non-numeric branch length raises, a numeric one is
stored and the trailing colon-delimited support value is consumed without
touching the annotation map. -/
theorem c8_branch_length_witness :
    ruleB [⟨.COLON, ":", 0⟩, ⟨.STRING, "abc", 1⟩] 1 0 [] = .error (.badBranchLength "abc")
      ∧ ruleB [⟨.COLON, ":", 0⟩, ⟨.STRING, "", 1⟩, ⟨.COLON, ":", 2⟩, ⟨.STRING, "99", 3⟩,
          ⟨.COMMA, ",", 4⟩] 4 0 [] = .ok (some 0, [], 4) :=
  ⟨(c8_branch_length [⟨.COLON, ":", 0⟩, ⟨.STRING, "abc", 1⟩] 0 ⟨.STRING, "abc", 1⟩
      (by rfl) (by rfl) (by rfl)).1 0 [] (by rfl),
   (c8_branch_length [⟨.COLON, ":", 0⟩, ⟨.STRING, "", 1⟩, ⟨.COLON, ":", 2⟩,
      ⟨.STRING, "99", 3⟩, ⟨.COMMA, ",", 4⟩] 0 ⟨.STRING, "", 1⟩
      (by rfl) (by rfl) (by rfl)).2 0 1 4 [] (by rfl)
      (by intro j hj; interval_cases j <;> exact ⟨rfl, rfl⟩)
      (by decide) (by decide) (by omega)⟩

/-- The tree `readNewick "(A);"` produces: a root with one branch-length-free
child, whose height comes out as NaN. -/
def c3cexTree : PTree :=
  .node ⟨0, none, none, none, []⟩ [.node ⟨1, some "A", none, none, []⟩ []]

/-- C3 as stated is false: on the parsed tree `(A);` the child's height is
NaN, `Math.min` over the heights is NaN, the shift subtracts NaN from every
height, and the resulting minimum is NaN rather than 0. -/
theorem c3_counterexample :
    readNewick "(A);" = .ok c3cexTree ∧ jsMin (postHeights c3cexTree) ≠ some 0 := by
  constructor
  · rfl
  · decide



/-! ## Hybrid / recombination edge grouping (`Tree.getRecombEdgeMap`, §4.6)

The JS maps keyed by stringified hybrid ids are modelled by association
lists; `srcSet` and `destAdd` reproduce JS object assignment (update in
place, insert new keys at the end).  The JS `for (… in …)` loops enumerate
the numeric keys in ascending order rather than insertion order, which only
permutes the entries of the resulting object and changes no lookup. -/

mutual
/-- Embeds the preorder hybrid-node collection
`applyPreOrder(node => node.isHybrid() ? node : null)`. -/
def hybridNodesT : PTree → List PTree
  | .node d cs =>
    if (NodeData.hybridID d).isSome then .node d cs :: hybridNodesF cs else hybridNodesF cs
/-- Hybrid nodes of a forest, in preorder. -/
def hybridNodesF : List PTree → List PTree
  | [] => []
  | c :: cs => hybridNodesT c ++ hybridNodesF cs
end

/-- JS `destHybridIDMap[h].push(node)`, or `[node]` for a fresh key. -/
def destAdd (m : List (ℚ × List PTree)) (h : ℚ) (u : PTree) : List (ℚ × List PTree) :=
  match m with
  | [] => [(h, [u])]
  | e :: rest => if e.1 == h then (e.1, e.2 ++ [u]) :: rest else e :: destAdd rest h u

/-- JS `srcHybridIDMap[h] = node`: overwrite in place, insert a new key at
the end. -/
def srcSet (m : List (ℚ × PTree)) (h : ℚ) (u : PTree) : List (ℚ × PTree) :=
  match m with
  | [] => [(h, u)]
  | e :: rest => if e.1 == h then (e.1, u) :: rest else e :: srcSet rest h u

/-- One step of the source/destination map construction loop of
`getRecombEdgeMap`: a hybrid leaf is filed as a destination under its id,
any other hybrid node becomes the source for its id.  (The `continue` for
an undefined id never fires: only hybrid nodes are collected.) -/
def hybridFold (maps : List (ℚ × PTree) × List (ℚ × List PTree)) (u : PTree) :
    List (ℚ × PTree) × List (ℚ × List PTree) :=
  match NodeData.hybridID (PTree.data u) with
  | none => maps
  | some h => if isLeafT u then (maps.1, destAdd maps.2 h u) else (srcSet maps.1 h u, maps.2)

/-- Lookup in an association map (JS property read). -/
def mLookup {α : Type} (m : List (ℚ × α)) (h : ℚ) : Option α :=
  (m.find? (fun e => e.1 == h)).map (fun e => e.2)

/-- The first output loop: one `[src] ++ dests` entry per source id; a
source id without destinations raises the extended-Newick group error. -/
def buildSrcEntries (srcs : List (ℚ × PTree)) (dests : List (ℚ × List PTree)) :
    Except String (List (ℚ × List PTree)) :=
  match srcs with
  | [] => .ok []
  | (h, u) :: rest =>
    match mLookup dests h with
    | some ds =>
      match buildSrcEntries rest dests with
      | .ok es => .ok ((h, u :: ds) :: es)
      | .error e => .error e
    | none => .error "Extended Newick error: hybrid nodes must come in groups of 2 or more."

/-- The second output loop (the leaf-recombination edge case): destination
groups whose id acquired no entry in the first loop are preserved
unchanged. -/
def destOnly (srcs : List (ℚ × PTree)) (dests : List (ℚ × List PTree)) :
    List (ℚ × List PTree) :=
  dests.filter (fun e => !(srcs.any (fun s => s.1 == e.1)))

/-- Embeds `Tree.getRecombEdgeMap()`. -/
def getRecombEdgeMap (t : PTree) : Except String (List (ℚ × List PTree)) :=
  let maps := (hybridNodesT t).foldl hybridFold ([], [])
  match buildSrcEntries maps.1 maps.2 with
  | .ok entries => .ok (entries ++ destOnly maps.1 maps.2)
  | .error e => .error e

/-- An association map holds a key. -/
def HasKey {α : Type} (m : List (ℚ × α)) (h : ℚ) : Prop :=
  ∃ e ∈ m, e.1 = h

/-- The hybrid leaves of a node list carrying a given id, in order. -/
def destsOf (L : List PTree) (h : ℚ) : List PTree :=
  L.filter (fun u => ((NodeData.hybridID (PTree.data u)) == some h) && isLeafT u)

/-- Lookup on a cons cell of an association map. -/
theorem mLookup_cons {α : Type} (k : ℚ) (v : α) (rest : List (ℚ × α)) (h : ℚ) :
    mLookup ((k, v) :: rest) h = if k = h then some v else mLookup rest h := by
  by_cases hk : k = h
  · rw [if_pos hk]
    unfold mLookup
    rw [List.find?_cons_of_pos _ (by simp [hk])]
    rfl
  · rw [if_neg hk]
    unfold mLookup
    rw [List.find?_cons_of_neg _ (by simp [hk])]

/-- Key membership on a cons cell. -/
theorem hasKey_cons {α : Type} (k : ℚ) (v : α) (m : List (ℚ × α)) (h : ℚ) :
    HasKey ((k, v) :: m) h ↔ (k = h ∨ HasKey m h) := by
  constructor
  · rintro ⟨e, he, h1⟩
    rcases List.mem_cons.mp he with rfl | hm
    · exact Or.inl h1
    · exact Or.inr ⟨e, hm, h1⟩
  · rintro (rfl | ⟨e, hm, h1⟩)
    · exact ⟨(k, v), List.mem_cons_self _ _, rfl⟩
    · exact ⟨e, List.mem_cons_of_mem _ hm, h1⟩

/-- The empty map has no keys. -/
theorem hasKey_nil {α : Type} (h : ℚ) : ¬ HasKey ([] : List (ℚ × α)) h := by
  rintro ⟨e, he, _⟩
  cases he

/-- An absent key looks up to nothing. -/
theorem mLookup_eq_none {α : Type} (m : List (ℚ × α)) (h : ℚ) (hk : ¬ HasKey m h) :
    mLookup m h = none := by
  induction m with
  | nil => rfl
  | cons e rest ih =>
    obtain ⟨k, v⟩ := e
    rw [mLookup_cons, if_neg (fun hc => hk ((hasKey_cons k v rest h).mpr (Or.inl hc)))]
    exact ih (fun hc => hk ((hasKey_cons k v rest h).mpr (Or.inr hc)))

/-- Lookup after a JS-object push on a destination map. -/
theorem mLookup_destAdd (h h' : ℚ) (u : PTree) :
    ∀ d : List (ℚ × List PTree),
      mLookup (destAdd d h' u) h
        = if h = h' then some ((mLookup d h').getD [] ++ [u]) else mLookup d h := by
  intro d
  induction d with
  | nil =>
    by_cases hh : h = h'
    · subst hh
      rw [if_pos rfl, show destAdd [] h u = [(h, [u])] from rfl, mLookup_cons, if_pos rfl]
      rfl
    · rw [if_neg hh, show destAdd [] h' u = [(h', [u])] from rfl, mLookup_cons,
        if_neg (fun hc => hh hc.symm)]
  | cons e rest ih =>
    obtain ⟨k, v⟩ := e
    by_cases hk : k = h'
    · rw [show destAdd ((k, v) :: rest) h' u = (k, v ++ [u]) :: rest from by simp [destAdd, hk]]
      by_cases hh : h = h'
      · subst hh
        rw [if_pos rfl, mLookup_cons, mLookup_cons, if_pos hk, if_pos hk]
        rfl
      · have hkh : ¬ k = h := fun hc => hh (hc.symm.trans hk)
        rw [if_neg hh, mLookup_cons, mLookup_cons, if_neg hkh, if_neg hkh]
    · rw [show destAdd ((k, v) :: rest) h' u = (k, v) :: destAdd rest h' u from by
        simp [destAdd, hk]]
      rw [mLookup_cons]
      by_cases hkh : k = h
      · rw [if_pos hkh]
        by_cases hh : h = h'
        · exact absurd (hkh.trans hh) hk
        · rw [if_neg hh, mLookup_cons, if_pos hkh]
      · rw [if_neg hkh, ih]
        by_cases hh : h = h'
        · rw [if_pos hh, if_pos hh, mLookup_cons, if_neg hk]
        · rw [if_neg hh, if_neg hh, mLookup_cons, if_neg hkh]

/-- Keys after a JS-object write on a source map. -/
theorem hasKey_srcSet (h h' : ℚ) (u : PTree) :
    ∀ s : List (ℚ × PTree), HasKey (srcSet s h' u) h ↔ (HasKey s h ∨ h = h') := by
  intro s
  induction s with
  | nil =>
    rw [show srcSet [] h' u = [(h', u)] from rfl]
    rw [hasKey_cons]
    constructor
    · rintro (rfl | hc)
      · exact Or.inr rfl
      · exact absurd hc (hasKey_nil h)
    · rintro (hc | rfl)
      · exact absurd hc (hasKey_nil h)
      · exact Or.inl rfl
  | cons e rest ih =>
    obtain ⟨k, v⟩ := e
    by_cases hk : k = h'
    · rw [show srcSet ((k, v) :: rest) h' u = (k, u) :: rest from by simp [srcSet, hk]]
      rw [hasKey_cons, hasKey_cons]
      constructor
      · rintro (rfl | hc)
        · exact Or.inl (Or.inl rfl)
        · exact Or.inl (Or.inr hc)
      · rintro ((rfl | hc) | rfl)
        · exact Or.inl rfl
        · exact Or.inr hc
        · exact Or.inl hk
    · rw [show srcSet ((k, v) :: rest) h' u = (k, v) :: srcSet rest h' u from by
        simp [srcSet, hk]]
      rw [hasKey_cons, hasKey_cons, ih]
      tauto


/-- Effect of the construction loop on the destination map: each id's group
collects exactly the hybrid leaves carrying that id, in preorder, appended
to whatever the accumulator already held. -/
theorem fold_dest_lookup (h : ℚ) :
    ∀ (L : List PTree) (s : List (ℚ × PTree)) (d : List (ℚ × List PTree)),
      mLookup ((L.foldl hybridFold (s, d)).2) h
        = match mLookup d h with
          | some ds => some (ds ++ destsOf L h)
          | none => if destsOf L h = [] then none else some (destsOf L h) := by
  intro L
  induction L with
  | nil =>
    intro s d
    rw [show destsOf [] h = [] from rfl]
    cases hd : mLookup d h with
    | some ds => simp [hd]
    | none => simp [hd]
  | cons u L ih =>
    intro s d
    rw [List.foldl_cons]
    cases hu : NodeData.hybridID (PTree.data u) with
    | none =>
      rw [show hybridFold (s, d) u = (s, d) from by simp [hybridFold, hu]]
      rw [show destsOf (u :: L) h = destsOf L h from by simp [destsOf, List.filter_cons, hu]]
      exact ih s d
    | some h' =>
      by_cases hl : isLeafT u = true
      · rw [show hybridFold (s, d) u = (s, destAdd d h' u) from by simp [hybridFold, hu, hl]]
        by_cases hh : h = h'
        · subst hh
          have hd : destsOf (u :: L) h = u :: destsOf L h := by
            simp [destsOf, List.filter_cons, hu, hl]
          rw [hd, ih s (destAdd d h u), mLookup_destAdd, if_pos rfl]
          cases hdm : mLookup d h with
          | some ds => simp
          | none => simp
        · have hd : destsOf (u :: L) h = destsOf L h := by
            simp [destsOf, List.filter_cons, hu]
            intro hc
            exact absurd hc.symm hh
          rw [hd, ih s (destAdd d h' u), mLookup_destAdd, if_neg hh]
      · rw [show hybridFold (s, d) u = (srcSet s h' u, d) from by simp [hybridFold, hu, hl]]
        have hd : destsOf (u :: L) h = destsOf L h := by
          simp [destsOf, List.filter_cons, hl]
        rw [hd]
        exact ih (srcSet s h' u) d

/-- Every key of the source map built by the loop comes from a non-leaf
hybrid node of the traversed list. -/
theorem fold_src_hasKey (h : ℚ) :
    ∀ (L : List PTree) (s : List (ℚ × PTree)) (d : List (ℚ × List PTree)),
      HasKey ((L.foldl hybridFold (s, d)).1) h →
      HasKey s h
        ∨ ∃ u ∈ L, NodeData.hybridID (PTree.data u) = some h ∧ isLeafT u = false := by
  intro L
  induction L with
  | nil =>
    intro s d hk
    exact Or.inl hk
  | cons u L ih =>
    intro s d hk
    rw [List.foldl_cons] at hk
    cases hu : NodeData.hybridID (PTree.data u) with
    | none =>
      rw [show hybridFold (s, d) u = (s, d) from by simp [hybridFold, hu]] at hk
      rcases ih s d hk with h1 | ⟨w, hw, hw2⟩
      · exact Or.inl h1
      · exact Or.inr ⟨w, List.mem_cons_of_mem _ hw, hw2⟩
    | some h' =>
      by_cases hl : isLeafT u = true
      · rw [show hybridFold (s, d) u = (s, destAdd d h' u) from by
          simp [hybridFold, hu, hl]] at hk
        rcases ih s (destAdd d h' u) hk with h1 | ⟨w, hw, hw2⟩
        · exact Or.inl h1
        · exact Or.inr ⟨w, List.mem_cons_of_mem _ hw, hw2⟩
      · rw [show hybridFold (s, d) u = (srcSet s h' u, d) from by
          simp [hybridFold, hu, hl]] at hk
        rcases ih (srcSet s h' u) d hk with h1 | ⟨w, hw, hw2⟩
        · rcases (hasKey_srcSet h h' u s).mp h1 with h2 | rfl
          · exact Or.inl h2
          · refine Or.inr ⟨u, List.mem_cons_self _ _, hu, ?_⟩
            revert hl
            cases isLeafT u <;> simp
        · exact Or.inr ⟨w, List.mem_cons_of_mem _ hw, hw2⟩

/-- When every source id has a destination group, the first output loop
succeeds and binds exactly the source ids. -/
theorem buildSrcEntries_ok (dests : List (ℚ × List PTree)) :
    ∀ srcs : List (ℚ × PTree), (∀ e ∈ srcs, mLookup dests e.1 ≠ none) →
      ∃ es, buildSrcEntries srcs dests = .ok es ∧ ∀ h, HasKey es h ↔ HasKey srcs h := by
  intro srcs
  induction srcs with
  | nil =>
    intro _
    exact ⟨[], rfl, fun h =>
      ⟨fun hc => absurd hc (hasKey_nil h), fun hc => absurd hc (hasKey_nil h)⟩⟩
  | cons e rest ih =>
    intro hall
    obtain ⟨k, u⟩ := e
    obtain ⟨ds, hds⟩ : ∃ ds, mLookup dests k = some ds := by
      cases hm : mLookup dests k with
      | none => exact absurd hm (hall (k, u) (List.mem_cons_self _ _))
      | some ds => exact ⟨ds, rfl⟩
    obtain ⟨es, hes, hkeys⟩ := ih (fun e he => hall e (List.mem_cons_of_mem _ he))
    refine ⟨(k, u :: ds) :: es, ?_, ?_⟩
    · simp only [buildSrcEntries, hds, hes]
    · intro h
      rw [hasKey_cons, hasKey_cons, hkeys h]

/-- Lookup skips a prefix that does not hold the key. -/
theorem mLookup_append_right {α : Type} (h : ℚ) (fs : List (ℚ × α)) :
    ∀ es : List (ℚ × α), ¬ HasKey es h → mLookup (es ++ fs) h = mLookup fs h := by
  intro es
  induction es with
  | nil => intro _; rfl
  | cons e rest ih =>
    intro hk
    obtain ⟨k, v⟩ := e
    rw [List.cons_append, mLookup_cons,
      if_neg (fun hc => hk ((hasKey_cons k v rest h).mpr (Or.inl hc)))]
    exact ih (fun hc => hk ((hasKey_cons k v rest h).mpr (Or.inr hc)))

/-- Lookup of an id with no source entry passes through the second loop's
filter untouched. -/
theorem mLookup_destOnly (hid : ℚ) (srcs : List (ℚ × PTree)) (hns : ¬ HasKey srcs hid) :
    ∀ dests : List (ℚ × List PTree), mLookup (destOnly srcs dests) hid = mLookup dests hid := by
  intro dests
  induction dests with
  | nil => rfl
  | cons e rest ih =>
    obtain ⟨k, v⟩ := e
    unfold destOnly at ih ⊢
    rw [List.filter_cons]
    by_cases hk : k = hid
    · subst hk
      have hany : (srcs.any (fun s => s.1 == k)) = false := by
        rw [List.any_eq_false]
        intro s hs hc
        exact hns ⟨s, hs, by simpa using hc⟩
      rw [hany]
      simp only [Bool.not_false, if_pos]
      rw [mLookup_cons, if_pos rfl, mLookup_cons, if_pos rfl]
    · by_cases hp : (!(srcs.any (fun s => s.1 == k))) = true
      · rw [if_pos hp, mLookup_cons, if_neg hk, mLookup_cons, if_neg hk]
        exact ih
      · rw [if_neg hp, mLookup_cons, if_neg hk]
        exact ih

/-- C2: a hybridID that appears only on leaf (destination) nodes never
trips the groups-of-2 error (it acquires no source entry), and — provided
every id that does have a source also has a destination leaf, so that
`getRecombEdgeMap` returns at all — the leaf-only destination group is
preserved unchanged as a map entry binding that hybridID to exactly its
leaf nodes, in preorder. -/
theorem c2_leaf_only_group (t : PTree) (hid : ℚ)
    (h1 : ∀ u ∈ hybridNodesT t, NodeData.hybridID (PTree.data u) = some hid → isLeafT u = true)
    (h2 : ∃ u ∈ hybridNodesT t, NodeData.hybridID (PTree.data u) = some hid)
    (h3 : ∀ u ∈ hybridNodesT t, isLeafT u = false →
      ∀ h', NodeData.hybridID (PTree.data u) = some h' →
        ∃ w ∈ hybridNodesT t, NodeData.hybridID (PTree.data w) = some h' ∧ isLeafT w = true) :
    ∃ m, getRecombEdgeMap t = .ok m
      ∧ mLookup m hid
        = some ((hybridNodesT t).filter
            (fun u => NodeData.hybridID (PTree.data u) == some hid)) := by
  have hnosrc : ¬ HasKey ((hybridNodesT t).foldl hybridFold ([], [])).1 hid := by
    intro hk
    rcases fold_src_hasKey hid (hybridNodesT t) [] [] hk with hs | ⟨u, hu, hu1, hu2⟩
    · exact hasKey_nil hid hs
    · rw [h1 u hu hu1] at hu2
      cases hu2
  have hne : destsOf (hybridNodesT t) hid ≠ [] := by
    obtain ⟨u, hu, hu1⟩ := h2
    have hmem : u ∈ destsOf (hybridNodesT t) hid :=
      List.mem_filter.mpr ⟨hu, by simp [hu1, h1 u hu hu1]⟩
    intro hc
    rw [hc] at hmem
    cases hmem
  have hdest : mLookup ((hybridNodesT t).foldl hybridFold ([], [])).2 hid
      = some (destsOf (hybridNodesT t) hid) := by
    rw [fold_dest_lookup]
    simp [hne, mLookup]
  have hall : ∀ e ∈ ((hybridNodesT t).foldl hybridFold ([], [])).1,
      mLookup ((hybridNodesT t).foldl hybridFold ([], [])).2 e.1 ≠ none := by
    intro e he
    have hk : HasKey ((hybridNodesT t).foldl hybridFold ([], [])).1 e.1 := ⟨e, he, rfl⟩
    rcases fold_src_hasKey e.1 (hybridNodesT t) [] [] hk with hs | ⟨u, hu, hu1, hu2⟩
    · exact absurd hs (hasKey_nil _)
    · obtain ⟨w, hw, hw1, hw2⟩ := h3 u hu hu2 e.1 hu1
      have hwm : w ∈ destsOf (hybridNodesT t) e.1 :=
        List.mem_filter.mpr ⟨hw, by simp [hw1, hw2]⟩
      have hne' : destsOf (hybridNodesT t) e.1 ≠ [] := by
        intro hc
        rw [hc] at hwm
        cases hwm
      rw [fold_dest_lookup]
      simp [hne', mLookup]
  obtain ⟨es, hes, hkeys⟩ :=
    buildSrcEntries_ok ((hybridNodesT t).foldl hybridFold ([], [])).2
      ((hybridNodesT t).foldl hybridFold ([], [])).1 hall
  refine ⟨es ++ destOnly ((hybridNodesT t).foldl hybridFold ([], [])).1
    ((hybridNodesT t).foldl hybridFold ([], [])).2, ?_, ?_⟩
  · show (match buildSrcEntries ((hybridNodesT t).foldl hybridFold ([], [])).1
        ((hybridNodesT t).foldl hybridFold ([], [])).2 with
      | Except.ok entries =>
        Except.ok (entries ++ destOnly ((hybridNodesT t).foldl hybridFold ([], [])).1
          ((hybridNodesT t).foldl hybridFold ([], [])).2)
      | Except.error e => Except.error e)
      = Except.ok (es ++ destOnly ((hybridNodesT t).foldl hybridFold ([], [])).1
          ((hybridNodesT t).foldl hybridFold ([], [])).2)
    rw [hes]
  · rw [mLookup_append_right hid _ es (fun hc => hnosrc ((hkeys hid).mp hc)),
      mLookup_destOnly hid _ hnosrc, hdest]
    congr 1
    unfold destsOf
    apply List.filter_congr
    intro u hu
    by_cases hu1 : NodeData.hybridID (PTree.data u) = some hid
    · simp [hu1, h1 u hu hu1]
    · simp [hu1]



/-- A tree whose hybrid id 1 appears on two leaves and on no internal
node. -/
def recombWitTree : PTree :=
  .node ⟨0, none, none, none, []⟩
    [.node ⟨1, some "A", none, some 1, []⟩ [],
     .node ⟨2, some "B", none, none, []⟩ [],
     .node ⟨3, some "C", none, some 1, []⟩ []]

/-- Witness for C2 at a concrete tree. -/
theorem c2_leaf_only_group_witness :
    ∃ m, getRecombEdgeMap recombWitTree = .ok m
      ∧ mLookup m 1 = some ((hybridNodesT recombWitTree).filter
          (fun u => NodeData.hybridID (PTree.data u) == some 1)) :=
  c2_leaf_only_group recombWitTree 1 (by decide) (by decide) (by decide)

/-! ## Reroot (`Tree.reroot`, spec §4.9)

`reroot(edgeBaseNode, prop)` is embedded for hybrid-free trees with
pairwise-distinct node ids; `edgeBaseNode` is designated by its forward
access path (child indices from the root).  On such trees
`currentRecombEdgeMap` is empty, so in `recurseReroot` the `seenNodes`
re-entry branch (which needs a second path to an already-visited id, i.e. a
hybrid edge or a duplicated id; the walk climbs the strictly ascending
parent chain and meets each id once) and the hybrid-destination re-walks
are unreachable, and the final height-matching loop iterates an empty map.
`computeNodeAges` mutates only derived heights, which this model does not
store.  A throw (`edgeBaseNodeP === undefined` for the root / an empty
path, or `branchLength === undefined` at the singleton splice) is `none`;
trees outside the fragment are also mapped to `none`. -/

/-- Whether any node of the tree is hybrid (`isHybrid()` somewhere). -/
def hasHybrid (t : PTree) : Bool :=
  (nodeListT t).any (fun d => (NodeData.hybridID d).isSome)

/-- All node ids are pairwise distinct. -/
def DistinctIds (t : PTree) : Prop :=
  ((nodeListT t).map NodeData.id).Nodup

instance (t : PTree) : Decidable (DistinctIds t) :=
  List.nodupDecidable _

/-- The branch-length split of the `prop` handling block: the first
component stays on `edgeBaseNode`, the second (`BL`) is carried into
`recurseReroot`.  With `prop` defined and in `[0, 1]` the edge keeps
`bl * prop` and carries the rest; otherwise both halves are `bl / 2`;
an undefined branch length is left untouched and carried as undefined. -/
def splitBL (bl p : Option ℚ) : Option ℚ × Option ℚ :=
  match bl with
  | none => (none, none)
  | some b =>
    match p with
    | some pv =>
      if 0 ≤ pv ∧ pv ≤ 1 then (some (b * pv), some (b - b * pv))
      else (some (b / 2), some (b / 2))
    | none => (some (b / 2), some (b / 2))

/-- Walk the access path down to `edgeBaseNode`, recording for every node
strictly above it its data and its children after `removeChild` of the
path child (`removeChild` splices the child out, keeping the order of the
rest); the spine is returned root first, together with the subtree at the
path's end.  `none` is an invalid path, and in particular the empty path:
rerooting at the root itself throws (`edgeBaseNodeP === undefined`). -/
def extractSpine : PTree → List ℕ → Option (List (NodeData × List PTree) × PTree)
  | _, [] => none
  | .node d cs, [j] =>
    match cs[j]? with
    | none => none
    | some c => some ([(d, cs.take j ++ cs.drop (j + 1))], c)
  | .node d cs, j :: r :: rs =>
    match cs[j]? with
    | none => none
    | some c =>
      match extractSpine c (r :: rs) with
      | some (sp, e) => some ((d, cs.take j ++ cs.drop (j + 1)) :: sp, e)
      | none => none

/-- Rebuild the reversed parent chain (`recurseReroot` with the hybrid
branches unreachable): the input spine runs from `edgeBaseNode`'s old
parent up to the old root.  Each node keeps its remaining children, takes
the carried branch length (`node.branchLength = BL`), appends the rebuilt
chain above it as its new last child (`addChild`), and hands its own old
branch length upward; the recursion past the old root returns at
`node === undefined`, dropping the old root's own branch length.  The old
root, when left with exactly one child and not hybrid, is spliced out by
the singleton-deletion block: the child replaces it (again as last child)
with the two branch lengths added — `none` models the
`branchLength === undefined` throw there. -/
def buildChain : List (NodeData × List PTree) → Option ℚ → Option PTree
  | [], _ => none
  | (d, cs) :: rest, carried =>
    match rest with
    | _ :: _ =>
      match buildChain rest (NodeData.branchLength d) with
      | some sub =>
        some (.node { d with branchLength := carried } (cs ++ [sub]))
      | none => none
    | [] =>
      if cs.length = 1 ∧ NodeData.hybridID d = none then
        match cs with
        | [c] =>
          match NodeData.branchLength (PTree.data c), carried with
          | some cb, some rb =>
            some (.node { PTree.data c with branchLength := some (cb + rb) }
              (PTree.children c))
          | _, _ => none
        | _ => none
      else some (.node { d with branchLength := carried } cs)

mutual
/-- Embeds `reassignNodeIDs`: renumber the nodes sequentially in preorder
(the `nodeList` order), starting from `n`; returns the next free id. -/
def reassignT (n : ℕ) : PTree → PTree × ℕ
  | .node d cs =>
    let r := reassignF (n + 1) cs
    (.node { d with id := n } r.1, r.2)
/-- Renumber a forest in preorder starting from `n`. -/
def reassignF (n : ℕ) : List PTree → List PTree × ℕ
  | [] => ([], n)
  | c :: cs =>
    let rc := reassignT n c
    let rcs := reassignF rc.2 cs
    (rc.1 :: rcs.1, rcs.2)
end

/-- Embeds `Tree.reroot(edgeBaseNode, prop)` on the hybrid-free,
distinct-id fragment (see the section comment): a fresh unlabeled root
`new Node(0)` receives `edgeBaseNode` (with its split branch length) and
then the rebuilt chain of its former ancestors, and node ids are
renumbered in preorder. -/
def reroot (t : PTree) (path : List ℕ) (p : Option ℚ) : Option PTree :=
  if hasHybrid t then none
  else if DistinctIds t then
    match extractSpine t path with
    | none => none
    | some (sp, e) =>
      match buildChain sp.reverse
          (splitBL (NodeData.branchLength (PTree.data e)) p).2 with
      | none => none
      | some chain =>
        some (reassignT 0 (.node ⟨0, none, none, none, []⟩
          [.node { PTree.data e with branchLength :=
              (splitBL (NodeData.branchLength (PTree.data e)) p).1 }
            (PTree.children e), chain])).1
  else none

/-- The claimed-conserved quantity a spine contributes: its nodes' own
branch lengths plus the totals of their remaining subtrees. -/
def spineSum (sp : List (NodeData × List PTree)) : ℚ :=
  (sp.map (fun q => blVal (NodeData.branchLength q.1) + totalBLF q.2)).sum

/-- The branch length of the last spine element (the one `recurseReroot`
drops at the old root). -/
def lastBL (sp : List (NodeData × List PTree)) : Option ℚ :=
  match sp.getLast? with
  | some q => NodeData.branchLength q.1
  | none => none

/-- The multiset of leaf labels of a tree (`undefined` labels included). -/
def leafMS (t : PTree) : Multiset (Option String) :=
  ((leafListT t).map NodeData.label : List (Option String))

/-- The multiset of leaf labels of a forest. -/
def leafMSF (l : List PTree) : Multiset (Option String) :=
  ((leafListF l).map NodeData.label : List (Option String))

/-- The leaf-label multiset a spine's remaining subtrees contribute. -/
def spineMS (sp : List (NodeData × List PTree)) : Multiset (Option String) :=
  (sp.map (fun q => leafMSF q.2)).sum

/-- The rooted-at-two-leaves tree `(A:1,B:1):1;` — a root carrying its own
branch length 1. -/
def rerootCex : PTree :=
  .node ⟨0, none, some 1, none, []⟩
    [.node ⟨1, some "A", some 1, none, []⟩ [],
     .node ⟨2, some "B", some 1, none, []⟩ []]

/-- C1 counterexample: rerooting `(A:1,B:1):1;` at the edge above `A`
(default proportion) yields total branch length 2, not the original 3:
`recurseReroot` hands the old root's own branch length to the recursive
call on its (undefined) parent, which returns immediately, so that length
is dropped. -/
theorem c1_counterexample :
    (reroot rerootCex [0] none).map getTotalBranchLength = some 2
      ∧ getTotalBranchLength rerootCex = 3 := by
  have h1 : reroot rerootCex [0] none
      = some (.node ⟨0, none, none, none, []⟩
          [.node ⟨1, some "A", some (1 / 2), none, []⟩ [],
           .node ⟨2, some "B", some (1 + 1 / 2), none, []⟩ []]) := rfl
  rw [h1]
  constructor
  · show some (getTotalBranchLength _) = some 2
    simp only [getTotalBranchLength, totalBLF, blVal, Option.getD]
    norm_num
  · simp only [rerootCex, getTotalBranchLength, totalBLF, blVal, Option.getD]
    norm_num

/-- Branch-length totals add over forest concatenation. -/
theorem totalBLF_append : ∀ (xs ys : List PTree),
    totalBLF (xs ++ ys) = totalBLF xs + totalBLF ys := by
  intro xs ys
  induction xs with
  | nil => rw [List.nil_append, totalBLF]; ring
  | cons c cs IH => rw [List.cons_append, totalBLF, totalBLF, IH]; ring

/-- The two halves of the `prop` split add back to the original branch
length (with `undefined` counted as 0 on both sides). -/
theorem splitBL_sum (bl p : Option ℚ) :
    blVal (splitBL bl p).1 + blVal (splitBL bl p).2 = blVal bl := by
  cases bl with
  | none => simp [splitBL, blVal]
  | some b =>
    cases p with
    | none => simp [splitBL, blVal]
    | some pv =>
      by_cases h : 0 ≤ pv ∧ pv ≤ 1
      · simp [splitBL, h, blVal]
      · simp [splitBL, h, blVal]

/-- The dropped branch length of a reversed spine is its first element's. -/
theorem lastBL_reverse (sp : List (NodeData × List PTree)) :
    lastBL sp.reverse
      = match sp.head? with
        | some q => NodeData.branchLength q.1
        | none => none := by
  rw [lastBL, List.getLast?_reverse]

/-- A spine's branch-length contribution is invariant under reversal. -/
theorem spineSum_reverse (sp : List (NodeData × List PTree)) :
    spineSum sp.reverse = spineSum sp := by
  rw [spineSum, spineSum, List.map_reverse, List.sum_reverse]

/-- A spine's leaf-label contribution is invariant under reversal. -/
theorem spineMS_reverse (sp : List (NodeData × List PTree)) :
    spineMS sp.reverse = spineMS sp := by
  rw [spineMS, spineMS, List.map_reverse, List.sum_reverse]

/-- Leaf-label multisets add over forest cons. -/
theorem leafMSF_cons (c : PTree) (cs : List PTree) :
    leafMSF (c :: cs) = leafMS c + leafMSF cs := by
  rw [leafMSF, leafMS, leafMSF, leafListF, List.map_append]
  exact (Multiset.coe_add _ _)

/-- Leaf-label multisets add over forest concatenation. -/
theorem leafMSF_append : ∀ (xs ys : List PTree),
    leafMSF (xs ++ ys) = leafMSF xs + leafMSF ys := by
  intro xs ys
  induction xs with
  | nil =>
    rw [List.nil_append]
    have h0 : leafMSF ([] : List PTree) = 0 := rfl
    rw [h0, zero_add]
  | cons c cs IH =>
    rw [List.cons_append, leafMSF_cons, leafMSF_cons, IH, add_assoc]

/-- An internal node's leaf labels are its children's. -/
theorem leafMS_node_ne_nil (d : NodeData) (cs : List PTree) (h : cs ≠ []) :
    leafMS (.node d cs) = leafMSF cs := by
  cases cs with
  | nil => exact absurd rfl h
  | cons c cs => rfl

/-- Changing a node's data without touching its label keeps the leaf-label
multiset. -/
theorem leafMS_node_label (d e : NodeData) (cs : List PTree)
    (h : NodeData.label d = NodeData.label e) :
    leafMS (.node d cs) = leafMS (.node e cs) := by
  cases cs with
  | nil => rw [leafMS, leafMS, leafListT, leafListT, List.map_singleton, List.map_singleton, h]
  | cons c cs => rfl

/-- Removing the path child splits a child list's branch-length total. -/
theorem totalBLF_remove (cs : List PTree) (j : ℕ) (c : PTree)
    (hj : cs[j]? = some c) :
    totalBLF cs
      = totalBLF (cs.take j ++ cs.drop (j + 1)) + getTotalBranchLength c := by
  have hjlt : j < cs.length := by
    by_contra hge
    rw [List.getElem?_eq_none (by omega)] at hj
    cases hj
  have hc : cs[j] = c := by
    rw [List.getElem?_eq_getElem hjlt] at hj
    exact Option.some.inj hj
  have h1 : totalBLF cs = totalBLF (cs.take j) + totalBLF (cs.drop j) := by
    rw [← totalBLF_append, List.take_append_drop]
  have h2 : cs.drop j = c :: cs.drop (j + 1) := by
    rw [List.drop_eq_getElem_cons hjlt, hc]
  rw [h1, h2, totalBLF, totalBLF_append]
  ring

/-- Removing the path child splits a child list's leaf-label multiset. -/
theorem leafMSF_remove (cs : List PTree) (j : ℕ) (c : PTree)
    (hj : cs[j]? = some c) :
    leafMSF cs = leafMSF (cs.take j ++ cs.drop (j + 1)) + leafMS c := by
  have hjlt : j < cs.length := by
    by_contra hge
    rw [List.getElem?_eq_none (by omega)] at hj
    cases hj
  have hc : cs[j] = c := by
    rw [List.getElem?_eq_getElem hjlt] at hj
    exact Option.some.inj hj
  have h1 : leafMSF cs = leafMSF (cs.take j) + leafMSF (cs.drop j) := by
    rw [← leafMSF_append, List.take_append_drop]
  have h2 : cs.drop j = c :: cs.drop (j + 1) := by
    rw [List.drop_eq_getElem_cons hjlt, hc]
  rw [h1, h2, leafMSF_cons, leafMSF_append]
  ring_nf
  rw [add_comm (leafMS c), add_assoc]

/-- The access-path walk decomposes the total branch length: the tree's
total is the spine's contribution plus the extracted subtree's. -/
theorem extractSpine_total : ∀ (path : List ℕ) (t : PTree)
    (sp : List (NodeData × List PTree)) (e : PTree),
    extractSpine t path = some (sp, e) →
    getTotalBranchLength t = spineSum sp + getTotalBranchLength e := by
  intro path
  induction path with
  | nil =>
    intro t sp e h
    obtain ⟨d, cs⟩ := t
    simp only [extractSpine] at h
    exact Option.noConfusion h
  | cons j rest IH =>
    intro t sp e h
    obtain ⟨d, cs⟩ := t
    cases rest with
    | nil =>
      cases hj : cs[j]? with
      | none =>
        simp only [extractSpine, hj] at h
        exact Option.noConfusion h
      | some c =>
        simp only [extractSpine, hj, Option.some.injEq, Prod.mk.injEq] at h
        obtain ⟨rfl, rfl⟩ := h.symm
        rw [getTotalBranchLength, totalBLF_remove cs j c hj, spineSum]
        simp only [List.map_cons, List.map_nil, List.sum_cons, List.sum_nil]
        ring
    | cons r rs =>
      cases hj : cs[j]? with
      | none =>
        simp only [extractSpine, hj] at h
        exact Option.noConfusion h
      | some c =>
        cases hrec : extractSpine c (r :: rs) with
        | none =>
          simp only [extractSpine, hj, hrec] at h
          exact Option.noConfusion h
        | some pr =>
          obtain ⟨sp2, e2⟩ := pr
          simp only [extractSpine, hj, hrec, Option.some.injEq,
            Prod.mk.injEq] at h
          obtain ⟨rfl, rfl⟩ := h.symm
          rw [getTotalBranchLength, totalBLF_remove cs j c hj,
            IH c sp2 e2 hrec, spineSum, spineSum]
          simp only [List.map_cons, List.sum_cons]
          ring

/-- The access-path walk decomposes the leaf-label multiset: the tree's
leaves are the spine's remaining subtrees' leaves plus the extracted
subtree's. -/
theorem extractSpine_leafMS : ∀ (path : List ℕ) (t : PTree)
    (sp : List (NodeData × List PTree)) (e : PTree),
    extractSpine t path = some (sp, e) →
    leafMS t = spineMS sp + leafMS e := by
  intro path
  induction path with
  | nil =>
    intro t sp e h
    obtain ⟨d, cs⟩ := t
    simp only [extractSpine] at h
    exact Option.noConfusion h
  | cons j rest IH =>
    intro t sp e h
    obtain ⟨d, cs⟩ := t
    have hne : ∀ c : PTree, cs[j]? = some c → cs ≠ [] := by
      intro c hj hnil
      rw [hnil] at hj
      cases hj
    cases rest with
    | nil =>
      cases hj : cs[j]? with
      | none =>
        simp only [extractSpine, hj] at h
        exact Option.noConfusion h
      | some c =>
        simp only [extractSpine, hj, Option.some.injEq, Prod.mk.injEq] at h
        obtain ⟨rfl, rfl⟩ := h.symm
        rw [leafMS_node_ne_nil d cs (hne c hj), leafMSF_remove cs j c hj,
          spineMS]
        simp only [List.map_cons, List.map_nil, List.sum_cons, List.sum_nil]
        rw [add_zero]
    | cons r rs =>
      cases hj : cs[j]? with
      | none =>
        simp only [extractSpine, hj] at h
        exact Option.noConfusion h
      | some c =>
        cases hrec : extractSpine c (r :: rs) with
        | none =>
          simp only [extractSpine, hj, hrec] at h
          exact Option.noConfusion h
        | some pr =>
          obtain ⟨sp2, e2⟩ := pr
          simp only [extractSpine, hj, hrec, Option.some.injEq,
            Prod.mk.injEq] at h
          obtain ⟨rfl, rfl⟩ := h.symm
          rw [leafMS_node_ne_nil d cs (hne c hj), leafMSF_remove cs j c hj,
            IH c sp2 e2 hrec, spineMS, spineMS]
          simp only [List.map_cons, List.sum_cons]
          rw [add_assoc]

/-- The spine starts at the root's data, with one child removed. -/
theorem extractSpine_head (path : List ℕ) (t : PTree)
    (sp : List (NodeData × List PTree)) (e : PTree)
    (h : extractSpine t path = some (sp, e)) :
    ∃ others, sp.head? = some (PTree.data t, others)
      ∧ others.length + 1 = (PTree.children t).length := by
  obtain ⟨d, cs⟩ := t
  cases path with
  | nil =>
    simp only [extractSpine] at h
    exact Option.noConfusion h
  | cons j rest =>
    have hlen : ∀ c : PTree, cs[j]? = some c →
        (cs.take j ++ cs.drop (j + 1)).length + 1 = cs.length := by
      intro c hj
      have hjlt : j < cs.length := by
        by_contra hge
        rw [List.getElem?_eq_none (by omega)] at hj
        cases hj
      rw [List.length_append, List.length_take, List.length_drop]
      omega
    cases rest with
    | nil =>
      cases hj : cs[j]? with
      | none =>
        simp only [extractSpine, hj] at h
        exact Option.noConfusion h
      | some c =>
        simp only [extractSpine, hj, Option.some.injEq, Prod.mk.injEq] at h
        obtain ⟨rfl, rfl⟩ := h.symm
        exact ⟨cs.take j ++ cs.drop (j + 1), rfl, hlen c hj⟩
    | cons r rs =>
      cases hj : cs[j]? with
      | none =>
        simp only [extractSpine, hj] at h
        exact Option.noConfusion h
      | some c =>
        cases hrec : extractSpine c (r :: rs) with
        | none =>
          simp only [extractSpine, hj, hrec] at h
          exact Option.noConfusion h
        | some pr =>
          obtain ⟨sp2, e2⟩ := pr
          simp only [extractSpine, hj, hrec, Option.some.injEq,
            Prod.mk.injEq] at h
          obtain ⟨rfl, rfl⟩ := h.symm
          exact ⟨cs.take j ++ cs.drop (j + 1), rfl, hlen c hj⟩

/-- The rebuilt chain conserves branch lengths up to the swap at its ends:
its total, plus the old root's dropped branch length, equals the carried
length plus the spine's contribution.  (In the singleton-splice case the
old root's length is dropped and the carried one merged, with the same
balance.) -/
theorem buildChain_total : ∀ (sp : List (NodeData × List PTree))
    (carried : Option ℚ) (r : PTree),
    buildChain sp carried = some r →
    getTotalBranchLength r + blVal (lastBL sp)
      = blVal carried + spineSum sp := by
  intro sp
  induction sp with
  | nil =>
    intro carried r h
    exact Option.noConfusion h
  | cons hd rest IH =>
    obtain ⟨d, cs⟩ := hd
    intro carried r h
    cases rest with
    | nil =>
      by_cases hc : cs.length = 1 ∧ NodeData.hybridID d = none
      · obtain ⟨hlen, hhy⟩ := hc
        match cs, hlen with
        | [c], _ =>
          obtain ⟨cd, ccs⟩ := c
          cases hcb : NodeData.branchLength cd with
          | none =>
            simp only [buildChain, if_pos (⟨rfl, hhy⟩ :
              ([PTree.node cd ccs] : List PTree).length = 1
                ∧ NodeData.hybridID d = none), PTree.data, hcb] at h
            exact Option.noConfusion h
          | some cb =>
            cases hca : carried with
            | none =>
              simp only [buildChain, if_pos (⟨rfl, hhy⟩ :
                ([PTree.node cd ccs] : List PTree).length = 1
                  ∧ NodeData.hybridID d = none), PTree.data, hcb, hca] at h
              exact Option.noConfusion h
            | some rb =>
              simp only [buildChain, if_pos (⟨rfl, hhy⟩ :
                ([PTree.node cd ccs] : List PTree).length = 1
                  ∧ NodeData.hybridID d = none), PTree.data, PTree.children,
                hcb, hca, Option.some.injEq] at h
              rw [← h, getTotalBranchLength]
              rw [show lastBL [(d, [PTree.node cd ccs])]
                  = NodeData.branchLength d from rfl]
              rw [show spineSum [(d, [PTree.node cd ccs])]
                  = blVal (NodeData.branchLength d)
                    + (getTotalBranchLength (PTree.node cd ccs) + 0) by
                rw [spineSum]; simp [totalBLF]]
              rw [getTotalBranchLength, hcb]
              simp only [blVal, Option.getD]
              ring
      · simp only [buildChain, if_neg hc, Option.some.injEq] at h
        rw [← h, getTotalBranchLength]
        rw [show lastBL [(d, cs)] = NodeData.branchLength d from rfl]
        rw [show spineSum [(d, cs)]
            = blVal (NodeData.branchLength d) + totalBLF cs + 0 by
          rw [spineSum]; simp]
        ring
    | cons q qs =>
      replace h : (match buildChain (q :: qs) (NodeData.branchLength d) with
        | some sub =>
          some (PTree.node { d with branchLength := carried } (cs ++ [sub]))
        | none => none) = some r := h
      cases hbc : buildChain (q :: qs) (NodeData.branchLength d) with
      | none =>
        rw [hbc] at h
        exact Option.noConfusion h
      | some sub =>
        rw [hbc] at h
        replace h : PTree.node { d with branchLength := carried } (cs ++ [sub])
            = r := Option.some.inj h
        have hih := IH (NodeData.branchLength d) sub hbc
        rw [← h, getTotalBranchLength, totalBLF_append, totalBLF, totalBLF]
        rw [show lastBL ((d, cs) :: q :: qs) = lastBL (q :: qs) by
          rw [lastBL, lastBL, List.getLast?_cons_cons]]
        rw [show spineSum ((d, cs) :: q :: qs)
            = blVal (NodeData.branchLength d) + totalBLF cs
              + spineSum (q :: qs) by
          rw [spineSum, spineSum]
          simp only [List.map_cons, List.sum_cons]]
        linarith

/-- The rebuilt chain's leaves are exactly the spine's remaining subtrees'
leaves, provided the old root keeps at least one other child (so it is not
turned into a fresh leaf). -/
theorem buildChain_leafMS : ∀ (sp : List (NodeData × List PTree))
    (carried : Option ℚ) (r : PTree),
    buildChain sp carried = some r →
    (∀ q ∈ sp.getLast?, q.2 ≠ ([] : List PTree)) →
    leafMS r = spineMS sp := by
  intro sp
  induction sp with
  | nil =>
    intro carried r h
    exact absurd h (by rw [buildChain]; simp)
  | cons hd rest IH =>
    obtain ⟨d, cs⟩ := hd
    intro carried r h hlast
    cases rest with
    | nil =>
      have hcs : cs ≠ [] := hlast (d, cs) rfl
      by_cases hc : cs.length = 1 ∧ NodeData.hybridID d = none
      · obtain ⟨hlen, hhy⟩ := hc
        match cs, hlen with
        | [c], _ =>
          obtain ⟨cd, ccs⟩ := c
          cases hcb : NodeData.branchLength cd with
          | none =>
            simp only [buildChain, if_pos (⟨rfl, hhy⟩ :
              ([PTree.node cd ccs] : List PTree).length = 1
                ∧ NodeData.hybridID d = none), PTree.data, hcb] at h
            exact Option.noConfusion h
          | some cb =>
            cases hca : carried with
            | none =>
              simp only [buildChain, if_pos (⟨rfl, hhy⟩ :
                ([PTree.node cd ccs] : List PTree).length = 1
                  ∧ NodeData.hybridID d = none), PTree.data, hcb, hca] at h
              exact Option.noConfusion h
            | some rb =>
              simp only [buildChain, if_pos (⟨rfl, hhy⟩ :
                ([PTree.node cd ccs] : List PTree).length = 1
                  ∧ NodeData.hybridID d = none), PTree.data, PTree.children,
                hcb, hca, Option.some.injEq] at h
              rw [← h]
              rw [show spineMS [(d, [PTree.node cd ccs])]
                  = leafMS (PTree.node cd ccs) + 0 by
                rw [spineMS]
                simp only [List.map_cons, List.map_nil, List.sum_cons,
                  List.sum_nil]
                rw [leafMSF_cons]
                have h0 : leafMSF ([] : List PTree) = 0 := rfl
                rw [h0, add_zero]]
              rw [add_zero]
              exact leafMS_node_label _ _ _ rfl
      · simp only [buildChain, if_neg hc, Option.some.injEq] at h
        rw [← h, leafMS_node_ne_nil _ cs hcs]
        rw [show spineMS [(d, cs)] = leafMSF cs + 0 by
          rw [spineMS]; simp]
        rw [add_zero]
    | cons q qs =>
      replace h : (match buildChain (q :: qs) (NodeData.branchLength d) with
        | some sub =>
          some (PTree.node { d with branchLength := carried } (cs ++ [sub]))
        | none => none) = some r := h
      cases hbc : buildChain (q :: qs) (NodeData.branchLength d) with
      | none =>
        rw [hbc] at h
        exact Option.noConfusion h
      | some sub =>
        rw [hbc] at h
        replace h : PTree.node { d with branchLength := carried } (cs ++ [sub])
            = r := Option.some.inj h
        have hih := IH (NodeData.branchLength d) sub hbc (by
          intro p hp
          exact hlast p (by rw [List.getLast?_cons_cons]; exact hp))
        rw [← h, leafMS_node_ne_nil _ _ (by
          intro hnil
          exact absurd (congrArg List.length hnil) (by
            rw [List.length_append]
            simp)),
          leafMSF_append, leafMSF_cons, hih]
        rw [show spineMS ((d, cs) :: q :: qs)
            = leafMSF cs + spineMS (q :: qs) by
          rw [spineMS, spineMS]
          simp only [List.map_cons, List.sum_cons]]
        have h0 : leafMSF ([] : List PTree) = 0 := rfl
        rw [h0, add_zero]

mutual
/-- `reassignNodeIDs` does not change the total branch length (tree). -/
theorem reassignT_totalBL : ∀ (n : ℕ) (t : PTree),
    getTotalBranchLength (reassignT n t).1 = getTotalBranchLength t
  | n, .node d cs =>
    congrArg (fun x => blVal (NodeData.branchLength d) + x)
      (reassignF_totalBL (n + 1) cs)
/-- `reassignNodeIDs` does not change the total branch length (forest). -/
theorem reassignF_totalBL : ∀ (n : ℕ) (l : List PTree),
    totalBLF (reassignF n l).1 = totalBLF l
  | _, [] => rfl
  | n, c :: cs => by
    show getTotalBranchLength (reassignT n c).1
        + totalBLF (reassignF (reassignT n c).2 cs).1
      = getTotalBranchLength c + totalBLF cs
    rw [reassignT_totalBL n c, reassignF_totalBL (reassignT n c).2 cs]
end

mutual
/-- `reassignNodeIDs` does not change the leaf labels (tree). -/
theorem reassignT_labels : ∀ (n : ℕ) (t : PTree),
    (leafListT (reassignT n t).1).map NodeData.label
      = (leafListT t).map NodeData.label
  | _, .node _ [] => rfl
  | n, .node _ (c :: cs) => reassignF_labels (n + 1) (c :: cs)
/-- `reassignNodeIDs` does not change the leaf labels (forest). -/
theorem reassignF_labels : ∀ (n : ℕ) (l : List PTree),
    (leafListF (reassignF n l).1).map NodeData.label
      = (leafListF l).map NodeData.label
  | _, [] => rfl
  | n, c :: cs => by
    show ((leafListT (reassignT n c).1)
        ++ leafListF (reassignF (reassignT n c).2 cs).1).map NodeData.label
      = ((leafListT c) ++ leafListF cs).map NodeData.label
    rw [List.map_append, List.map_append, reassignT_labels n c,
      reassignF_labels (reassignT n c).2 cs]
end

/-- Over leaves that all carry labels, membership in `getTipLabels` is
membership of the label itself (`label ?? id.toString()` never falls back
to the id). -/
theorem tip_mem_iff (L : List NodeData) (s : String)
    (hall : ∀ d ∈ L, NodeData.label d ≠ none) :
    s ∈ L.map tipString ↔ some s ∈ L.map NodeData.label := by
  simp only [List.mem_map]
  constructor
  · rintro ⟨d, hd, rfl⟩
    refine ⟨d, hd, ?_⟩
    cases hl : NodeData.label d with
    | none => exact absurd hl (hall d hd)
    | some l =>
      have ht : tipString d = l := by
        rw [tipString, hl]
        rfl
      rw [ht]
  · rintro ⟨d, hd, hl⟩
    refine ⟨d, hd, ?_⟩
    rw [tipString, hl]
    rfl

/-- C1 (amended): on the modelled fragment — no hybrid nodes, distinct
ids — and when additionally the root carries no branch length (as for
every tree read from Newick, where a root length 0 is normalised away)
and has at least two children, and every leaf is labelled, a successful
`reroot` preserves the total branch length and the set of tip labels.
Without these extra hypotheses the claim fails: the old root's own branch
length is dropped by `recurseReroot` (see the counterexample); a
single-child root is spliced out or left behind as a fresh unlabeled
leaf; and an unlabeled leaf's displayed tip label `id.toString()` changes
when `reassignNodeIDs` renumbers it. -/
theorem c1_reroot_conservation (t : PTree) (path : List ℕ) (p : Option ℚ)
    (u : PTree)
    (hroot : NodeData.branchLength (PTree.data t) = none)
    (hchild : 2 ≤ (PTree.children t).length)
    (hleaf : ∀ d ∈ leafListT t, NodeData.label d ≠ none)
    (hr : reroot t path p = some u) :
    getTotalBranchLength u = getTotalBranchLength t
      ∧ ∀ s, s ∈ getTipLabels u ↔ s ∈ getTipLabels t := by
  rw [reroot] at hr
  by_cases hhy : hasHybrid t
  · rw [if_pos hhy] at hr
    exact Option.noConfusion hr
  rw [if_neg hhy] at hr
  by_cases hdi : DistinctIds t
  case neg =>
    rw [if_neg hdi] at hr
    exact Option.noConfusion hr
  rw [if_pos hdi] at hr
  cases hsp : extractSpine t path with
  | none =>
    rw [hsp] at hr
    exact Option.noConfusion hr
  | some pr =>
    obtain ⟨sp, e⟩ := pr
    obtain ⟨ed, ecs⟩ := e
    rw [hsp] at hr
    replace hr : (match buildChain sp.reverse
        (splitBL (NodeData.branchLength ed) p).2 with
      | none => none
      | some chain =>
        some (reassignT 0 (PTree.node ⟨0, none, none, none, []⟩
          [PTree.node { ed with branchLength :=
              (splitBL (NodeData.branchLength ed) p).1 } ecs,
            chain])).1) = some u := hr
    cases hbc : buildChain sp.reverse
        (splitBL (NodeData.branchLength ed) p).2 with
    | none =>
      rw [hbc] at hr
      exact Option.noConfusion hr
    | some chain =>
      rw [hbc] at hr
      replace hr : (reassignT 0 (PTree.node ⟨0, none, none, none, []⟩
          [PTree.node { ed with branchLength :=
              (splitBL (NodeData.branchLength ed) p).1 } ecs,
            chain])).1 = u := Option.some.inj hr
      have hsplit := splitBL_sum (NodeData.branchLength ed) p
      have hA := extractSpine_total path t sp (PTree.node ed ecs) hsp
      obtain ⟨others, hh1, hh2⟩ :=
        extractSpine_head path t sp (PTree.node ed ecs) hsp
      have hB := buildChain_total sp.reverse
        (splitBL (NodeData.branchLength ed) p).2 chain hbc
      have hlast0 : lastBL sp.reverse = none := by
        rw [lastBL_reverse, hh1]
        exact hroot
      have hchain : getTotalBranchLength chain
          = blVal ((splitBL (NodeData.branchLength ed) p).2) + spineSum sp := by
        rw [hlast0, spineSum_reverse] at hB
        rw [show blVal (none : Option ℚ) = 0 from rfl] at hB
        linarith
      constructor
      · rw [← hr, reassignT_totalBL]
        rw [show getTotalBranchLength (PTree.node ⟨0, none, none, none, []⟩
            [PTree.node { ed with branchLength :=
                (splitBL (NodeData.branchLength ed) p).1 } ecs, chain])
            = blVal ((splitBL (NodeData.branchLength ed) p).1) + totalBLF ecs
              + getTotalBranchLength chain by
          rw [getTotalBranchLength, totalBLF, totalBLF, totalBLF,
            getTotalBranchLength]
          rw [show NodeData.branchLength { ed with branchLength :=
              (splitBL (NodeData.branchLength ed) p).1 }
            = (splitBL (NodeData.branchLength ed) p).1 from rfl]
          rw [show blVal (NodeData.branchLength
              (⟨0, none, none, none, []⟩ : NodeData)) = 0 from rfl]
          ring]
        rw [hchain, hA]
        rw [show getTotalBranchLength (PTree.node ed ecs)
            = blVal (NodeData.branchLength ed) + totalBLF ecs from rfl]
        linarith
      · have hlastrev : ∀ q ∈ (sp.reverse).getLast?,
            q.2 ≠ ([] : List PTree) := by
          rw [List.getLast?_reverse, hh1]
          intro q hq hnil
          obtain rfl := Option.some.inj hq
          rw [show (PTree.data t, others).2 = others from rfl] at hnil
          rw [hnil] at hh2
          simp only [List.length_nil, Nat.zero_add] at hh2
          omega
        have hchainMS : leafMS chain = spineMS sp := by
          rw [← spineMS_reverse]
          exact buildChain_leafMS sp.reverse
            (splitBL (NodeData.branchLength ed) p).2 chain hbc hlastrev
        have hMS : leafMS u = leafMS t := by
          rw [← hr]
          rw [show leafMS (reassignT 0 (PTree.node ⟨0, none, none, none, []⟩
              [PTree.node { ed with branchLength :=
                  (splitBL (NodeData.branchLength ed) p).1 } ecs, chain])).1
              = leafMS (PTree.node ⟨0, none, none, none, []⟩
                [PTree.node { ed with branchLength :=
                    (splitBL (NodeData.branchLength ed) p).1 } ecs, chain]) by
            rw [leafMS, leafMS, reassignT_labels]]
          rw [leafMS_node_ne_nil _ _ (by intro h0; cases h0)]
          rw [leafMSF_cons, leafMSF_cons]
          rw [show leafMSF ([] : List PTree) = 0 from rfl, add_zero]
          rw [hchainMS]
          rw [leafMS_node_label { ed with branchLength :=
              (splitBL (NodeData.branchLength ed) p).1 } ed ecs rfl]
          rw [extractSpine_leafMS path t sp (PTree.node ed ecs) hsp]
          rw [add_comm]
        intro s
        rw [getTipLabels, getTipLabels]
        have hall2 : ∀ d2 ∈ leafListT u, NodeData.label d2 ≠ none := by
          intro d2 hd2 hn
          have h1 : (none : Option String) ∈ (leafListT u).map NodeData.label :=
            List.mem_map.mpr ⟨d2, hd2, hn⟩
          have h2 : (none : Option String) ∈ leafMS u := h1
          rw [hMS] at h2
          obtain ⟨d3, hd3, hn3⟩ := List.mem_map.mp h2
          exact hleaf d3 hd3 hn3
        rw [tip_mem_iff _ _ hall2, tip_mem_iff _ _ hleaf]
        constructor
        · intro hmem
          have h2 : (some s) ∈ leafMS u := hmem
          rw [hMS] at h2
          exact h2
        · intro hmem
          have h2 : (some s) ∈ leafMS t := hmem
          rw [← hMS] at h2
          exact h2

/-- The tree `(A:1,B:2);` — unlabelled root without a branch length, two
labelled leaves. -/
def rerootWitTree : PTree :=
  .node ⟨0, none, none, none, []⟩
    [.node ⟨1, some "A", some 1, none, []⟩ [],
     .node ⟨2, some "B", some 2, none, []⟩ []]

/-- What `reroot` returns on `rerootWitTree` at the edge above `A` with the
default proportion: the edge is halved and the old root spliced out. -/
def rerootWitResult : PTree :=
  .node ⟨0, none, none, none, []⟩
    [.node ⟨1, some "A", some (1 / 2), none, []⟩ [],
     .node ⟨2, some "B", some (2 + 1 / 2), none, []⟩ []]

/-- Witness for C1 at a concrete tree. -/
theorem c1_reroot_conservation_witness :
    getTotalBranchLength rerootWitResult = getTotalBranchLength rerootWitTree
      ∧ ∀ s, s ∈ getTipLabels rerootWitResult
        ↔ s ∈ getTipLabels rerootWitTree :=
  c1_reroot_conservation rerootWitTree [0] none rerootWitResult rfl
    (by decide) (by decide) rfl

end Phylo
